import Mathlib

/-!
Verification of btimby/python-icap against its specification.

The embedding models `src/icap/models.py` (RequestLine, StatusLine,
HeadersDict, ICAPRequest.allow_204) and `src/icap/server.py` (Hooks, stop).
Python strings are modelled as lists of characters (`PyStr`), bytes as lists
of naturals, Python exceptions as `Option`/`Except` results.
-/

/-- A Python `str`: a sequence of unicode code points. -/
abbrev PyStr := List Char

/-- Lowercase a single character, as Python `str.lower` acts on ASCII. -/
def lowerChar (c : Char) : Char :=
  if 65 ≤ c.toNat ∧ c.toNat ≤ 90 then Char.ofNat (c.toNat + 32) else c

/-- Python `str.lower` (restricted to its ASCII action, which is all the
source relies on for header names and URL schemes). -/
def pyLower (s : PyStr) : PyStr := s.map lowerChar

/-- Python `b.startswith(a)` on strings. -/
def pyStartsWith : PyStr → PyStr → Bool
  | [], _ => true
  | _ :: _, [] => false
  | a :: p, b :: q => a = b && pyStartsWith p q

/-- Python substring test `needle in hay` on strings. -/
def pySubstr (needle hay : PyStr) : Bool :=
  hay.tails.any (fun t => pyStartsWith needle t)

/-! ## HeadersDict (models.py lines 106-198)

A `HeadersDict` is an ordered dictionary from the lowercased field name to
the list of `(original-case name, value)` pairs stored under it, in
insertion order.  This is exactly the underlying `OrderedDict` state of the
Python class. -/

abbrev HeadersDict := List (PyStr × List (PyStr × PyStr))

/-- `OrderedDict.__getitem__` on the underlying dict: association lookup. -/
def hdLookup : HeadersDict → PyStr → Option (List (PyStr × PyStr))
  | [], _ => none
  | (k, b) :: rest, key => if k = key then some b else hdLookup rest key

/-- `OrderedDict.__setitem__` on a key that is already present: the bucket is
replaced in place, the position of the key is unchanged. -/
def hdReplaceBucket : HeadersDict → PyStr → List (PyStr × PyStr) → HeadersDict
  | [], _, _ => []
  | (k, b) :: rest, key, nb =>
      if k = key then (k, nb) :: rest else (k, b) :: hdReplaceBucket rest key nb

/-- `HeadersDict.__setitem__`: append `(key, value)` to the bucket stored at
the lowercased key, creating a new bucket at the end on first insertion. -/
def hdSet (h : HeadersDict) (key value : PyStr) : HeadersDict :=
  let lkey := pyLower key
  match hdLookup h lkey with
  | none => h ++ [(lkey, [(key, value)])]
  | some b => hdReplaceBucket h lkey (b ++ [(key, value)])

/-- `HeadersDict.__getitem__`: the first value stored under the lowercased
key; `none` models the `KeyError` on a missing name. -/
def hdGet (h : HeadersDict) (key : PyStr) : Option PyStr :=
  (hdLookup h (pyLower key)).bind fun b => b.head?.map Prod.snd

/-- `HeadersDict.get(key, default)` (with a string default, as used by
`allow_204`). -/
def hdGetD (h : HeadersDict) (key d : PyStr) : PyStr :=
  (hdGet h key).getD d

/-- `HeadersDict.getlist`: every value stored under the lowercased key. -/
def hdGetList (h : HeadersDict) (key : PyStr) : List PyStr :=
  match hdLookup h (pyLower key) with
  | none => []
  | some b => b.map Prod.snd

/-- `HeadersDict.__contains__`: case-insensitive presence test. -/
def hdContains (h : HeadersDict) (key : PyStr) : Bool :=
  (hdLookup h (pyLower key)).isSome

/-- `OrderedDict.__delitem__` / the removal performed by `pop`. -/
def hdRemove : HeadersDict → PyStr → HeadersDict
  | [], _ => []
  | (k, b) :: rest, key => if k = key then rest else (k, b) :: hdRemove rest key

/-- `HeadersDict.pop(key)` with no default: delegates to the underlying
ordered dict at the lowercased key, so it returns the raw stored bucket (the
whole list of `(original-case name, value)` pairs) and removes the key.
`none` in the first component models the `KeyError` on a missing name. -/
def hdPop (h : HeadersDict) (key : PyStr) : Option (List (PyStr × PyStr)) × HeadersDict :=
  (hdLookup h (pyLower key), hdRemove h (pyLower key))

/-- Concatenation of a list of strings. -/
def pyConcat : List PyStr → PyStr
  | [] => []
  | s :: rest => s ++ pyConcat rest

/-- `sep.join(pieces)` in Python. -/
def pyIntercalate (sep : PyStr) : List PyStr → PyStr
  | [] => []
  | [s] => s
  | s :: rest => s ++ sep ++ pyIntercalate sep rest

/-- The CRLF line terminator. -/
def crlf : PyStr := ['\r', '\n']

/-- `HeadersDict.__bytes__` (as the decoded text; the final UTF-8 encoding
is injective and applied at a higher level): an empty dict serializes to the
empty string, otherwise the `"Name: Value"` lines for every stored pair are
joined with CRLF and a trailing CRLF is appended. -/
def hdSerialize (h : HeadersDict) : PyStr :=
  if h.isEmpty then [] else
    pyIntercalate crlf
      ((h.map fun kb => kb.2.map fun nv => nv.1 ++ (": ".data) ++ nv.2).flatten)
      ++ crlf

/-! ## ICAPRequest.allow_204 (models.py lines 286-291) -/

/-- `ICAPRequest.allow_204`: substring test of `'204'` against the first
`Allow` value (default empty), or presence of a `Preview` header.  The
source carries a FIXME noting that it should parse the list instead. -/
def allow204 (headers : HeadersDict) : Bool :=
  pySubstr ("204".data) (hdGetD headers ("allow".data) []) ||
    hdContains headers ("preview".data)

/-! ## StatusLine (models.py lines 66-103) -/

/-- Modelled from the spec: `src/icap/errors.py` (`http_response_codes`) is
not under `src/`; the entries are the canonical HTTP reasons named by the
specification (sections 4.7 and 8, and the models.py docstring example
`StatusLine('HTTP/1.1', '204')` giving `'No Content'`). -/
def http_response_codes : List (Nat × PyStr) :=
  [(100, "Continue".data), (200, "OK".data), (204, "No Content".data),
   (400, "Bad Request".data), (404, "Not Found".data),
   (500, "Internal Server Error".data), (501, "Not Implemented".data)]

/-- Modelled from the spec: `src/icap/errors.py` (`icap_response_codes`) is
not under `src/`; the entries are the ICAP reasons named literally by the
specification (sections 4.7, 7 and 8). -/
def icap_response_codes : List (Nat × PyStr) :=
  [(100, "Continue".data), (200, "OK".data), (204, "No Content".data),
   (400, "Bad request".data), (404, "ICAP service not found".data),
   (500, "Server error".data), (501, "Method not implemented".data)]

/-- Python dict lookup on a code table; `none` models the `KeyError`. -/
def tableLookup : List (Nat × PyStr) → Nat → Option PyStr
  | [], _ => none
  | (k, r) :: rest, code => if k = code then some r else tableLookup rest code

/-- A parsed status line. -/
structure StatusLineT where
  version : PyStr
  code : Nat
  reason : PyStr
deriving DecidableEq

/-- `StatusLine.__new__` called without a reason argument: the reason is
filled from the table selected by version family (`http_response_codes`
when the version starts with `HTTP`, otherwise `icap_response_codes`);
`none` models the `KeyError` raised for a code absent from the table. -/
def statusLineNew (version : PyStr) (code : Nat) : Option StatusLineT :=
  (tableLookup
      (if pyStartsWith ("HTTP".data) version then http_response_codes
       else icap_response_codes) code).map fun r => ⟨version, code, r⟩

/-! ## Hooks (server.py lines 8-80) -/

/-- One registered hook: the callable (which may raise, modelled by
`Except`) and the captured fallback value.  Python `None` is `Option.none`
in the value type. -/
structure HookEntry (V : Type) where
  func : List (Option V) → Except Unit (Option V)
  fallback : Option V

/-- The hook table: a dict from hook name to its entry. -/
abbrev Hooks (V : Type) := List (String × HookEntry V)

/-- `dict.__getitem__`/`in` on the hook table. -/
def hooksLookup {V : Type} : Hooks V → String → Option (HookEntry V)
  | [], _ => none
  | (k, e) :: rest, name => if k = name then some e else hooksLookup rest name

/-- `dict.__setitem__` on the hook table: replace in place or append. -/
def hooksSet {V : Type} : Hooks V → String → HookEntry V → Hooks V
  | [], name, e => [(name, e)]
  | (k, e0) :: rest, name, e =>
      if k = name then (k, e) :: rest else (k, e0) :: hooksSet rest name e

/-- `Hooks.__getitem__`: returns the safe callable.  An unregistered name
yields the pair `(lambda *args: None, None)`; in every case the callable is
wrapped so that a raising hook yields the fallback value instead. -/
def hooksGetItem {V : Type} (h : Hooks V) (name : String) :
    List (Option V) → Option V :=
  let entry :=
    match hooksLookup h name with
    | some e => e
    | none => ⟨fun _ => Except.ok none, none⟩
  fun args =>
    match entry.func args with
    | Except.ok v => v
    | Except.error _ => entry.fallback

/-- `Hooks.__call__` combined with applying the returned decorator to
`func`: unless `override` is set, a name that is already registered keeps
its previously captured fallback value. -/
def hooksRegister {V : Type} (h : Hooks V) (name : String) (dflt : Option V)
    (override : Bool) (func : List (Option V) → Except Unit (Option V)) : Hooks V :=
  hooksSet h name
    ⟨func,
      match hooksLookup h name with
      | some e => cond override dflt e.fallback
      | none => dflt⟩

/-! ## run/stop (server.py lines 85-124) -/

/-- A handle to a started server; `close` flips the flag. -/
structure ServerHandle where
  closed : Bool
deriving DecidableEq

/-- The module-level state of `icap.server`: the global `_server`. -/
structure ServerModule where
  srv : Option ServerHandle
deriving DecidableEq

/-- `server.stop()`: asserts the module handle is set (`none` result models
the `AssertionError`), calls `.close()` on it, and then assigns `None` to
the misspelled local name `_serevr`, which leaves the module-level
`_server` still bound to the closed handle. -/
def stopServer (m : ServerModule) : Option ServerModule :=
  match m.srv with
  | none => none
  | some s => some ⟨some ⟨(fun _ => true) s.closed⟩⟩

/-! ## RequestLine and the urllib.parse model (models.py lines 21-63)

`RequestLine.__new__` runs the uri through `urlparse` and replaces the
query string by its `parse_qs` dict; `RequestLine.__bytes__` re-serializes
that dict with `urlencode(..., doseq=True)`, rebuilds the URL with
`geturl()` and space-joins method, uri and version.  The standard-library
functions are modelled from CPython `urllib.parse`. -/

/-- ASCII letter test (`str.isalpha` restricted to ASCII, as used by the
scheme check). -/
def isAlphaAscii (c : Char) : Bool :=
  (97 ≤ c.toNat && c.toNat ≤ 122) || (65 ≤ c.toNat && c.toNat ≤ 90)

/-- ASCII digit test. -/
def isDigitAscii (c : Char) : Bool := 48 ≤ c.toNat && c.toNat ≤ 57

/-- Membership in CPython `urllib.parse.scheme_chars`. -/
def isSchemeChar (c : Char) : Bool :=
  isAlphaAscii c || isDigitAscii c || c = '+' || c = '-' || c = '.'

/-- Value of one hex digit, upper or lower case (CPython `_hextobyte`). -/
def hexVal (c : Char) : Option Nat :=
  if 48 ≤ c.toNat ∧ c.toNat ≤ 57 then some (c.toNat - 48)
  else if 97 ≤ c.toNat ∧ c.toNat ≤ 102 then some (c.toNat - 87)
  else if 65 ≤ c.toNat ∧ c.toNat ≤ 70 then some (c.toNat - 55)
  else none

/-- Uppercase hex digit of a value below 16 (CPython percent-quoting). -/
def hexDigit (n : Nat) : Char :=
  if n < 10 then Char.ofNat (48 + n) else Char.ofNat (55 + n)

/-- UTF-8 encoding of one code point. -/
def utf8EncodeChar (c : Char) : List Nat :=
  let n := c.toNat
  if n < 128 then [n]
  else if n < 2048 then [192 + n / 64, 128 + n % 64]
  else if n < 65536 then [224 + n / 4096, 128 + n / 64 % 64, 128 + n % 64]
  else [240 + n / 262144, 128 + n / 4096 % 64, 128 + n / 64 % 64, 128 + n % 64]

/-- UTF-8 encoding of a string (Python `str.encode('utf8')`). -/
def utf8EncodeStr (s : PyStr) : List Nat := (s.map utf8EncodeChar).flatten

/-- The U+FFFD replacement character. -/
def replChar : Char := Char.ofNat 65533

/-- One step of UTF-8 decoding with replacement: decode one scalar value
starting at byte `b` (consuming continuation bytes from `rest`), or emit
the replacement character and resume at the next byte. -/
def utf8Step (b : Nat) (rest : List Nat) : Char × List Nat :=
  if b < 128 then (Char.ofNat b, rest)
  else if 194 ≤ b ∧ b ≤ 223 then
    match rest with
    | b2 :: rest2 =>
      if 128 ≤ b2 ∧ b2 < 192 then (Char.ofNat ((b - 192) * 64 + (b2 - 128)), rest2)
      else (replChar, b2 :: rest2)
    | [] => (replChar, [])
  else if 224 ≤ b ∧ b ≤ 239 then
    match rest with
    | b2 :: b3 :: rest3 =>
      if (128 ≤ b2 ∧ b2 < 192) ∧ (128 ≤ b3 ∧ b3 < 192) ∧
          2048 ≤ (b - 224) * 4096 + (b2 - 128) * 64 + (b3 - 128) ∧
          ¬ (55296 ≤ (b - 224) * 4096 + (b2 - 128) * 64 + (b3 - 128) ∧
              (b - 224) * 4096 + (b2 - 128) * 64 + (b3 - 128) ≤ 57343) then
        (Char.ofNat ((b - 224) * 4096 + (b2 - 128) * 64 + (b3 - 128)), rest3)
      else (replChar, b2 :: b3 :: rest3)
    | other => (replChar, other)
  else if 240 ≤ b ∧ b ≤ 244 then
    match rest with
    | b2 :: b3 :: b4 :: rest4 =>
      if (128 ≤ b2 ∧ b2 < 192) ∧ (128 ≤ b3 ∧ b3 < 192) ∧ (128 ≤ b4 ∧ b4 < 192) ∧
          65536 ≤ (b - 240) * 262144 + (b2 - 128) * 4096 + (b3 - 128) * 64 + (b4 - 128) ∧
          (b - 240) * 262144 + (b2 - 128) * 4096 + (b3 - 128) * 64 + (b4 - 128) ≤ 1114111 then
        (Char.ofNat ((b - 240) * 262144 + (b2 - 128) * 4096 + (b3 - 128) * 64 + (b4 - 128)),
          rest4)
      else (replChar, b2 :: b3 :: b4 :: rest4)
    | other => (replChar, other)
  else (replChar, rest)

/-- Fuel-driven UTF-8 decoding loop; the fuel bounds the number of bytes,
so it never runs out when started at the length of the byte string. -/
def utf8DecodeGo : Nat → List Nat → PyStr
  | _, [] => []
  | 0, _ :: _ => []
  | fuel + 1, b :: rest => (utf8Step b rest).1 :: utf8DecodeGo fuel (utf8Step b rest).2

/-- UTF-8 decoding with replacement on error (Python `bytes.decode('utf8',
'replace')`; on an invalid sequence one replacement character is emitted
and decoding resumes at the next byte). -/
def utf8DecodeReplace (bs : List Nat) : PyStr := utf8DecodeGo bs.length bs

/-- Characters never percent-quoted by `urllib.parse.quote` (the
`_ALWAYS_SAFE` set minus the empty extra-safe string used by
`urlencode`). -/
def alwaysSafe (c : Char) : Bool :=
  isAlphaAscii c || isDigitAscii c || c = '_' || c = '.' || c = '-' || c = '~'

/-- Percent-quoting of one byte, uppercase hex. -/
def quoteByte (b : Nat) : PyStr := ['%', hexDigit (b / 16), hexDigit (b % 16)]

/-- `urllib.parse.quote_plus` on one character with `safe=''`: safe
characters stay, the space becomes `+`, everything else is the
percent-quoting of its UTF-8 bytes. -/
def quotePlusChar (c : Char) : PyStr :=
  if alwaysSafe c then [c]
  else if c = ' ' then ['+']
  else ((utf8EncodeChar c).map quoteByte).flatten

/-- `urllib.parse.quote_plus` with `safe=''` (as called by `urlencode`). -/
def quotePlus (s : PyStr) : PyStr := (s.map quotePlusChar).flatten

/-- The `+` to space replacement `parse_qsl` performs before unquoting. -/
def plusToSpace (s : PyStr) : PyStr := s.map fun c => if c = '+' then ' ' else c

/-- One step of the byte expansion of `urllib.parse.unquote`: a `%`
followed by two hex digits contributes that byte, every other character
contributes its UTF-8 bytes. -/
def unquoteStep (c : Char) (rest : PyStr) : List Nat × PyStr :=
  if c = '%' then
    match rest with
    | c1 :: c2 :: rest2 =>
      match hexVal c1, hexVal c2 with
      | some hi, some lo => ([16 * hi + lo], rest2)
      | _, _ => (utf8EncodeChar '%', c1 :: c2 :: rest2)
    | other => (utf8EncodeChar '%', other)
  else (utf8EncodeChar c, rest)

/-- Fuel-driven percent-decoding loop (the fuel bounds the length). -/
def unquoteGo : Nat → PyStr → List Nat
  | _, [] => []
  | 0, _ :: _ => []
  | fuel + 1, c :: rest => (unquoteStep c rest).1 ++ unquoteGo fuel (unquoteStep c rest).2

/-- Byte expansion of `urllib.parse.unquote`: the whole byte string is
afterwards decoded as UTF-8 with replacement. -/
def unquoteBytes (s : PyStr) : List Nat := unquoteGo s.length s

/-- `urllib.parse.unquote_plus`: replace `+` by spaces, percent-decode,
UTF-8-decode with replacement. -/
def unquotePlus (s : PyStr) : PyStr := utf8DecodeReplace (unquoteBytes (plusToSpace s))

/-- Python `s.split(c)`: split at every occurrence, keeping empty pieces. -/
def splitAllChar (c : Char) : PyStr → List PyStr
  | [] => [[]]
  | a :: rest =>
    if a = c then [] :: splitAllChar c rest
    else
      match splitAllChar c rest with
      | [] => [[a]]
      | p :: ps => (a :: p) :: ps

/-- Python `s.split(c, 1)`: split at the first occurrence; `none` when the
character does not occur. -/
def splitOnceChar (c : Char) : PyStr → Option (PyStr × PyStr)
  | [] => none
  | a :: rest =>
    if a = c then some ([], rest)
    else (splitOnceChar c rest).map fun pq => (a :: pq.1, pq.2)

/-- Split at the last occurrence of a character (`str.rfind` driven). -/
def splitLastChar (c : Char) : PyStr → Option (PyStr × PyStr)
  | [] => none
  | a :: rest =>
    match splitLastChar c rest with
    | some pq => some (a :: pq.1, pq.2)
    | none => if a = c then some ([], rest) else none

/-- The in-memory query multimap: keys to lists of values, in first
occurrence order, as produced by `parse_qs`. -/
abbrev QueryDict := List (PyStr × List PyStr)

def qsLookup : QueryDict → PyStr → Option (List PyStr)
  | [], _ => none
  | (k, vs) :: rest, n => if k = n then some vs else qsLookup rest n

def qsAppendAt : QueryDict → PyStr → PyStr → QueryDict
  | [], _, _ => []
  | (k, vs) :: rest, n, v =>
      if k = n then (k, vs ++ [v]) :: rest else (k, vs) :: qsAppendAt rest n v

/-- One grouping step of `parse_qs`: append the value to the bucket when
the key exists, otherwise create a new bucket at the end. -/
def qsInsert (d : QueryDict) (n v : PyStr) : QueryDict :=
  match qsLookup d n with
  | some _ => qsAppendAt d n v
  | none => d ++ [(n, [v])]

/-- One field of `parse_qsl`: empty fields and fields without `=` or with
a blank value are dropped, otherwise name and value are unquoted. -/
def qslField (nv : PyStr) : Option (PyStr × PyStr) :=
  if nv.isEmpty then none
  else
    match splitOnceChar '=' nv with
    | none => none
    | some p => if p.2.isEmpty then none else some (unquotePlus p.1, unquotePlus p.2)

/-- `urllib.parse.parse_qsl` with default arguments (separator `&`, blank
values dropped, fields without `=` dropped). -/
def parseQsl (qs : PyStr) : List (PyStr × PyStr) :=
  (splitAllChar '&' qs).filterMap qslField

/-- `urllib.parse.parse_qs` with default arguments. -/
def parseQs (qs : PyStr) : QueryDict :=
  (parseQsl qs).foldl (fun d nv => qsInsert d nv.1 nv.2) []

/-- The `(name, value)` pairs of a query dict, flattened in order. -/
def flattenPairs (d : QueryDict) : List (PyStr × PyStr) :=
  (d.map fun kv => kv.2.map fun v => (kv.1, v)).flatten

/-- The well-formedness invariant of `parse_qs` output: bucket keys are
pairwise distinct, and every bucket and every value is nonempty. -/
def QueryWF (d : QueryDict) : Prop :=
  (d.map Prod.fst).Nodup ∧ ∀ kv ∈ d, kv.2 ≠ [] ∧ ∀ v ∈ kv.2, v ≠ []

/-- `urllib.parse.urlencode(query, doseq=True)` on a dict whose values are
lists of strings (the shape `parse_qs` produces): one `k=v` field per list
element, fields joined with `&`. -/
def urlencodeDoseq (q : QueryDict) : PyStr :=
  pyIntercalate ['&']
    ((q.map fun kv => kv.2.map fun v => quotePlus kv.1 ++ '=' :: quotePlus v).flatten)

/-- Delimiters ending the netloc (CPython `_splitnetloc`). -/
def netlocDelim (c : Char) : Bool := c = '/' || c = '?' || c = '#'

/-- Longest prefix on which the predicate is false, with the remainder. -/
def spanNot (p : Char → Bool) : PyStr → PyStr × PyStr
  | [] => ([], [])
  | a :: rest =>
    if p a then ([], a :: rest)
    else
      let xy := spanNot p rest
      (a :: xy.1, xy.2)

/-- WHATWG C0-control-or-space test: `urlsplit` strips these from the left
of the url. -/
def isC0OrSpace (c : Char) : Bool := c.toNat ≤ 32

/-- The bytes `urlsplit` removes from the url everywhere (tab, CR, LF). -/
def isTabCrLf (c : Char) : Bool := c = '\t' || c = '\r' || c = '\n'

/-- The sanitization `urlsplit` applies before parsing: strip leading
C0-controls and spaces, then remove every tab, CR and LF. -/
def urlClean (u : PyStr) : PyStr :=
  (u.dropWhile isC0OrSpace).filter fun c => !isTabCrLf c

/-- Whether a nonempty candidate qualifies as a scheme: it starts with an
ASCII letter and consists of scheme characters. -/
def schemeOKb : PyStr → Bool
  | [] => false
  | c :: rest => isAlphaAscii c && (c :: rest).all isSchemeChar

/-- The scheme detection of CPython `urlsplit`: the text before the first
`:` qualifies when it is nonempty, starts with an ASCII letter and
consists of scheme characters; it is stored lowercased. -/
def splitScheme (u : PyStr) : PyStr × PyStr :=
  match splitOnceChar ':' u with
  | none => ([], u)
  | some p => if schemeOKb p.1 then (pyLower p.1, p.2) else ([], u)

/-- The components of `urllib.parse.urlsplit`. -/
structure SplitResult where
  scheme : PyStr
  netloc : PyStr
  path : PyStr
  query : PyStr
  fragment : PyStr
deriving DecidableEq

/-- The netloc split of `urlsplit`: when the remainder starts with `//`
(CPython tests `url[:2] == '//'`), the netloc runs to the first of `/?#`
(CPython `_splitnetloc`). -/
def splitNetloc : PyStr → PyStr × PyStr
  | a :: b :: rest =>
    if a = '/' ∧ b = '/' then spanNot netlocDelim rest else ([], a :: b :: rest)
  | other => ([], other)

/-- The fragment split of `urlsplit`: at the first `#`, if any. -/
def splitFrag (x : PyStr) : PyStr × PyStr :=
  match splitOnceChar '#' x with
  | some pq => pq
  | none => (x, [])

/-- The query split of `urlsplit`: at the first `?`, if any. -/
def splitQuery (x : PyStr) : PyStr × PyStr :=
  match splitOnceChar '?' x with
  | some pq => pq
  | none => (x, [])

/-- `urllib.parse.urlsplit` modelled from CPython 3.11: the url is
sanitized by `urlClean`; scheme detection as in `splitScheme`; a netloc
after `//` runs to the first of `/?#`; mismatched square brackets in the
netloc raise `ValueError` (modelled by `none`; the further
`_check_bracketed_host` and `_checknetloc` validations, which only reject
additional inputs, are not modelled); the fragment splits at the first
`#`, then the query at the first `?`. -/
def urlsplitM (u : PyStr) : Option SplitResult :=
  let su := splitScheme (urlClean u)
  let nu := splitNetloc su.2
  if (nu.1.contains '[').xor (nu.1.contains ']') then none
  else
    let fu := splitFrag nu.2
    let qu := splitQuery fu.1
    some ⟨su.1, nu.1, qu.1, qu.2, fu.2⟩

/-- CPython `uses_params`: the schemes for which `urlparse` splits
parameters off the last path segment. -/
def usesParams : List PyStr :=
  ["", "ftp", "hdl", "prospero", "http", "imap", "https", "shttp", "rtsp",
   "rtsps", "rtspu", "sip", "sips", "mms", "sftp", "tel"].map String.data

/-- CPython `uses_netloc`: the schemes for which `urlunsplit` re-adds the
`//` before an empty netloc. -/
def usesNetloc : List PyStr :=
  ["", "ftp", "http", "gopher", "nntp", "telnet", "imap", "wais", "file",
   "mms", "https", "shttp", "snews", "prospero", "rtsp", "rtsps", "rtspu",
   "rsync", "svn", "svn+ssh", "sftp", "nfs", "git", "git+ssh", "ws",
   "wss"].map String.data

/-- CPython `_splitparams`: parameters are split at the first `;` at or
after the last `/` (or the first `;` at all when the path has no `/`). -/
def splitparams (url : PyStr) : PyStr × PyStr :=
  match splitLastChar '/' url with
  | some ab =>
    match splitOnceChar ';' ab.2 with
    | some b => (ab.1 ++ '/' :: b.1, b.2)
    | none => (url, [])
  | none =>
    match splitOnceChar ';' url with
    | some pq => pq
    | none => (url, [])

/-- The (already query-parsed) `ParseResult` stored in a `RequestLine`. -/
structure ParseResult where
  scheme : PyStr
  netloc : PyStr
  path : PyStr
  params : PyStr
  query : QueryDict
  fragment : PyStr
deriving DecidableEq

/-- The uri processing of `RequestLine.__new__`: `urlparse` (urlsplit plus
parameter splitting for the schemes in `uses_params`), then the query
string is replaced by its `parse_qs` dict. -/
def urlparseQ (u : PyStr) : Option ParseResult :=
  (urlsplitM u).map fun s =>
    let pp :=
      if usesParams.contains s.scheme && s.path.contains ';' then splitparams s.path
      else (s.path, [])
    ⟨s.scheme, s.netloc, pp.1, pp.2, parseQs s.query, s.fragment⟩

/-- The path adjustment when `urlunsplit` re-adds a netloc: a nonempty
path that does not already start with `/` gets one prepended. -/
def slashPath : PyStr → PyStr
  | [] => []
  | c :: rest => if c = '/' then c :: rest else '/' :: c :: rest

/-- The `url` assembled by `urlunsplit` before the scheme, query and
fragment are attached: the `//` and the netloc are put back when the
netloc is nonempty, or when the scheme is a nonempty member of
`uses_netloc` and the path does not itself begin with `//`. -/
def netlocPart (scheme netloc path : PyStr) : PyStr :=
  if netloc ≠ [] ∨ (scheme ≠ [] ∧ usesNetloc.contains scheme ∧ path.take 2 ≠ ['/', '/']) then
    ['/', '/'] ++ netloc ++ slashPath path
  else path

/-- `urlunsplit`: prepend `scheme:` when the scheme is nonempty. -/
def withScheme (scheme url : PyStr) : PyStr :=
  if scheme ≠ [] then scheme ++ ':' :: url else url

/-- `urlunsplit`: append `?query` when the query is nonempty. -/
def withQuery (url query : PyStr) : PyStr :=
  if query ≠ [] then url ++ '?' :: query else url

/-- `urlunsplit`: append `#fragment` when the fragment is nonempty. -/
def withFrag (url fragment : PyStr) : PyStr :=
  if fragment ≠ [] then url ++ '#' :: fragment else url

/-- CPython 3.11 `urlunsplit`. -/
def urlunsplit (scheme netloc path query fragment : PyStr) : PyStr :=
  withFrag (withQuery (withScheme scheme (netlocPart scheme netloc path)) query) fragment

/-- The path-with-parameters rejoin performed by `urlunparse`. -/
def joinParams (path params : PyStr) : PyStr :=
  if params ≠ [] then path ++ ';' :: params else path

/-- CPython `urlunparse`: rejoin the parameters, then `urlunsplit`. -/
def urlunparse (scheme netloc path params query fragment : PyStr) : PyStr :=
  urlunsplit scheme netloc (joinParams path params) query fragment

/-- The uri serialization of `RequestLine.__bytes__`:
`uri._replace(query=urlencode(query, doseq=True)).geturl()`. -/
def geturlQ (pr : ParseResult) : PyStr :=
  urlunparse pr.scheme pr.netloc pr.path pr.params (urlencodeDoseq pr.query) pr.fragment

/-- A parsed request line. -/
structure RequestLineT where
  method : PyStr
  uri : ParseResult
  version : PyStr
deriving DecidableEq

/-- `RequestLine.__new__`: parse the uri (`none` models a `ValueError`
escaping `urlparse`). -/
def requestLineNew (method uri version : PyStr) : Option RequestLineT :=
  (urlparseQ uri).map fun pr => ⟨method, pr, version⟩

/-- `RequestLine.__bytes__`: space-join method, re-serialized uri and
version, and UTF-8-encode. -/
def requestLineBytes (rl : RequestLineT) : List Nat :=
  utf8EncodeStr (rl.method ++ ' ' :: (geturlQ rl.uri ++ ' ' :: rl.version))

/-- Modelled from the spec: the request-line parsing lives in
`src/icap/parsing.py`, which is not under `src/`.  Per the spec the parser
decodes the line and splits it into method, uri and version on single
spaces (the version takes the remainder, as with `str.split(' ', 2)`),
handing the parts to the `RequestLine` constructor. -/
def parseRequestLineBytes (bs : List Nat) : Option RequestLineT :=
  let line := utf8DecodeReplace bs
  match splitOnceChar ' ' line with
  | none => none
  | some mr =>
    match splitOnceChar ' ' mr.2 with
    | none => none
    | some uv => requestLineNew mr.1 uv.1 uv.2

/-! ## Theorems -/

theorem hdLookup_append_self (h : HeadersDict) (l : PyStr)
    (b : List (PyStr × PyStr)) (hn : hdLookup h l = none) :
    hdLookup (h ++ [(l, b)]) l = some b := by
  induction h with
  | nil => simp [hdLookup]
  | cons kb rest ih =>
    obtain ⟨k, b0⟩ := kb
    by_cases hk : k = l
    · simp [hdLookup, hk] at hn
    · simp only [hdLookup, List.cons_append, if_neg hk] at hn ⊢
      exact ih hn

theorem hdReplaceBucket_append_self (h : HeadersDict) (l : PyStr)
    (b nb : List (PyStr × PyStr)) (hn : hdLookup h l = none) :
    hdReplaceBucket (h ++ [(l, b)]) l nb = h ++ [(l, nb)] := by
  induction h with
  | nil => simp [hdReplaceBucket]
  | cons kb rest ih =>
    obtain ⟨k, b0⟩ := kb
    by_cases hk : k = l
    · simp [hdLookup, hk] at hn
    · simp only [hdLookup, if_neg hk] at hn
      simp only [List.cons_append, hdReplaceBucket, if_neg hk, List.append_eq]
      rw [ih hn]

/-- C3 (amended): on a `HeadersDict` that holds no pair under the
(case-insensitive) name `N`, inserting `(N, v1)` and then `(N, v2)` makes
`getlist N` return `[v1, v2]` and the indexed lookup return `v1`:
insertion appends, lookup returns the first value, `getlist` every value. -/
theorem headers_append_getlist_first (h : HeadersDict) (N v1 v2 : PyStr)
    (hN : hdLookup h (pyLower N) = none) :
    hdGetList (hdSet (hdSet h N v1) N v2) N = [v1, v2] ∧
      hdGet (hdSet (hdSet h N v1) N v2) N = some v1 := by
  have h1 : hdSet h N v1 = h ++ [(pyLower N, [(N, v1)])] := by
    simp [hdSet, hN]
  have h2 : hdSet (hdSet h N v1) N v2 = h ++ [(pyLower N, [(N, v1), (N, v2)])] := by
    rw [h1]
    simp only [hdSet, hdLookup_append_self h (pyLower N) [(N, v1)] hN]
    rw [hdReplaceBucket_append_self h (pyLower N) [(N, v1)] _ hN]
    rfl
  rw [h2]
  constructor
  · simp [hdGetList, hdLookup_append_self h (pyLower N) _ hN]
  · simp [hdGet, hdLookup_append_self h (pyLower N) _ hN]

/-- C3 witness: the amended statement evaluated on the empty dict with the
name `Allow` and values `a`, `b`. -/
theorem headers_append_getlist_first_witness :
    hdGetList (hdSet (hdSet [] ("Allow".data) ("a".data)) ("Allow".data) ("b".data)) ("Allow".data)
        = ["a".data, "b".data] ∧
      hdGet (hdSet (hdSet [] ("Allow".data) ("a".data)) ("Allow".data) ("b".data)) ("Allow".data)
        = some ("a".data) :=
  headers_append_getlist_first [] ("Allow".data) ("a".data) ("b".data) (by decide)

/-- C3 counterexample: the claim as stated, quantified over every
`HeadersDict`, fails when the dict already holds a pair under the name: on
`{n: v0}` the two insertions give `getlist n = [v0, v1, v2]`, not
`[v1, v2]`, and the lookup gives `v0`, not `v1`. -/
theorem headers_append_getlist_first_counterexample :
    ¬ (hdGetList (hdSet (hdSet (hdSet [] ("n".data) ("v0".data)) ("n".data) ("v1".data)) ("n".data) ("v2".data)) ("n".data)
          = ["v1".data, "v2".data] ∧
        hdGet (hdSet (hdSet (hdSet [] ("n".data) ("v0".data)) ("n".data) ("v1".data)) ("n".data) ("v2".data)) ("n".data)
          = some ("v1".data)) := by
  decide

/-- C4: the code evaluated at the failing input.  On a dict holding
`(N, v1)` and `(N, v2)`, `pop N` removes all pairs under the name but
returns the whole stored bucket of `(name, value)` pairs, not the first
value `v1` that the specification prescribes. -/
theorem headers_pop_returns_bucket :
    hdPop (hdSet (hdSet [] ("N".data) ("v1".data)) ("N".data) ("v2".data)) ("N".data)
        = (some [("N".data, "v1".data), ("N".data, "v2".data)], []) ∧
      hdGet (hdSet (hdSet [] ("N".data) ("v1".data)) ("N".data) ("v2".data)) ("N".data)
        = some ("v1".data) := by
  decide

theorem pyIntercalate_crlf_concat (lines : List PyStr) (hne : lines ≠ []) :
    pyIntercalate crlf lines ++ crlf = pyConcat (lines.map fun s => s ++ crlf) := by
  induction lines with
  | nil => exact absurd rfl hne
  | cons s rest ih =>
    cases rest with
    | nil => simp [pyIntercalate, pyConcat]
    | cons t rest2 =>
      have := ih (by simp)
      simp only [pyIntercalate, pyConcat, List.map]
      simp only [pyIntercalate] at this
      rw [List.append_assoc, List.append_assoc, this]
      simp [pyConcat]

theorem pyConcat_append (a b : List PyStr) :
    pyConcat (a ++ b) = pyConcat a ++ pyConcat b := by
  induction a with
  | nil => simp [pyConcat]
  | cons s rest ih => simp [pyConcat, ih]

/-- C6: header serialization emits exactly one `"Name: Value\r\n"` line for
every stored pair, in the order the pairs are stored (names in order of
first insertion, values under one name in insertion order), so the block
ends with a trailing CRLF and an empty `HeadersDict` serializes to the
empty string.  The hypothesis states the invariant, maintained by every
constructor of the class, that no bucket is empty. -/
theorem headers_serialize_lines (h : HeadersDict)
    (hb : ∀ kb ∈ h, kb.2 ≠ []) :
    hdSerialize h =
      pyConcat ((h.map fun kb => kb.2.map fun nv => nv.1 ++ (": ".data) ++ nv.2 ++ crlf).flatten) := by
  unfold hdSerialize
  by_cases hemp : h.isEmpty
  · rw [if_pos hemp]
    rw [List.isEmpty_iff] at hemp
    subst hemp
    simp [pyConcat]
  · rw [if_neg hemp]
    have hlines : (h.map fun kb => kb.2.map fun nv => nv.1 ++ (": ".data) ++ nv.2).flatten ≠ [] := by
      rw [List.isEmpty_iff] at hemp
      cases h with
      | nil => exact absurd rfl hemp
      | cons kb rest =>
        have hkb := hb kb (by simp)
        cases hyp : kb.2 with
        | nil => exact absurd hyp hkb
        | cons nv tail => simp [hyp]
    rw [pyIntercalate_crlf_concat _ hlines]
    clear hlines hemp hb
    induction h with
    | nil => simp [pyConcat]
    | cons kb rest ih =>
      simp only [List.map_cons, List.flatten_cons, List.map_append, pyConcat_append, ih]
      congr 1
      rw [List.map_map]
      rfl

/-- C6 witness: a dict with two names, one multi-valued, serializes to the
concatenation of its per-pair lines. -/
theorem headers_serialize_lines_witness :
    (∀ kb ∈ (hdSet (hdSet (hdSet [] ("A".data) ("1".data)) ("B".data) ("2".data)) ("a".data) ("3".data)), kb.2 ≠ []) ∧
      hdSerialize (hdSet (hdSet (hdSet [] ("A".data) ("1".data)) ("B".data) ("2".data)) ("a".data) ("3".data)) =
        pyConcat (((hdSet (hdSet (hdSet [] ("A".data) ("1".data)) ("B".data) ("2".data)) ("a".data) ("3".data)).map
          fun kb => kb.2.map fun nv => nv.1 ++ (": ".data) ++ nv.2 ++ crlf).flatten) :=
  ⟨by decide, headers_serialize_lines _ (by decide)⟩

/-- C1: the code evaluated at the inputs named by the claim.  `Allow: 204,
foo` and `Preview: 0` are detected as permitting 204, but so is `Allow:
2040`, because the source tests `'204' in value` as a substring instead of
parsing the comma-separated token list (its own FIXME comment records the
intended behavior). -/
theorem allow204_substring_bug :
    allow204 (hdSet [] ("Allow".data) ("2040".data)) = true ∧
      allow204 (hdSet [] ("Allow".data) ("204, foo".data)) = true ∧
      allow204 (hdSet [] ("Preview".data) ("0".data)) = true ∧
      allow204 [] = false := by
  decide

/-- C8: constructing a `StatusLine` from only a version and a code fills the
reason from the table selected by version family: the HTTP table when the
version starts with `HTTP`, otherwise the ICAP table. -/
theorem statusLine_default_reason (version : PyStr) (code : Nat) (r : PyStr)
    (h : tableLookup
        (if pyStartsWith ("HTTP".data) version then http_response_codes
         else icap_response_codes) code = some r) :
    statusLineNew version code = some ⟨version, code, r⟩ := by
  unfold statusLineNew
  rw [h]
  rfl

/-- C8 witness: `StatusLine('HTTP/1.1', 204)` gets the canonical HTTP
reason `No Content`, `StatusLine('ICAP/1.0', 404)` the canonical ICAP
reason. -/
theorem statusLine_default_reason_witness :
    statusLineNew ("HTTP/1.1".data) 204 = some ⟨"HTTP/1.1".data, 204, "No Content".data⟩ ∧
      statusLineNew ("ICAP/1.0".data) 404 = some ⟨"ICAP/1.0".data, 404, "ICAP service not found".data⟩ :=
  ⟨statusLine_default_reason _ _ _ (by decide),
   statusLine_default_reason _ _ _ (by decide)⟩

/-- C2: looking a registered name up in the hook table returns a total
wrapper (so invoking it through the table never raises); whenever the
registered callable raises, the wrapper returns the fallback value captured
for that name. -/
theorem hook_failure_returns_fallback {V : Type} (h : Hooks V) (name : String)
    (f : List (Option V) → Except Unit (Option V)) (d : Option V)
    (args : List (Option V)) (e : Unit)
    (hreg : hooksLookup h name = some ⟨f, d⟩)
    (hfail : f args = Except.error e) :
    hooksGetItem h name args = d := by
  unfold hooksGetItem
  rw [hreg]
  simp only
  rw [hfail]

/-- C2 witness: a hook registered with fallback `3` whose callable always
raises yields `3` when invoked through the table. -/
theorem hook_failure_returns_fallback_witness :
    hooksGetItem [("is_tag", (⟨fun _ => Except.error (), some 3⟩ : HookEntry Nat))] "is_tag" [] = some 3 :=
  hook_failure_returns_fallback _ _ _ _ _ () rfl rfl

/-- C10: looking up a name that is not registered never raises and returns
a callable that returns `None` for every argument list. -/
theorem hook_missing_returns_none {V : Type} (h : Hooks V) (name : String)
    (args : List (Option V))
    (hmiss : hooksLookup h name = none) :
    hooksGetItem h name args = none := by
  unfold hooksGetItem
  rw [hmiss]

/-- C10 witness: the empty hook table returns `None` on any lookup and
argument list. -/
theorem hook_missing_returns_none_witness :
    hooksGetItem ([] : Hooks Nat) "options_headers" [some 1] = none :=
  hook_missing_returns_none [] "options_headers" [some 1] rfl

theorem hooksLookup_set_self {V : Type} (h : Hooks V) (name : String)
    (e : HookEntry V) : hooksLookup (hooksSet h name e) name = some e := by
  induction h with
  | nil => simp [hooksSet, hooksLookup]
  | cons ke rest ih =>
    obtain ⟨k, e0⟩ := ke
    by_cases hk : k = name
    · simp [hooksSet, hooksLookup, hk]
    · simp [hooksSet, hooksLookup, hk, ih]

/-- C7: the fallback captured at the first registration under a name is kept
by every later re-registration under that name that does not pass
`override=True` (stated for an arbitrary list of such re-registrations),
while a re-registration with `override=True` installs its own fallback. -/
theorem hook_fallback_preserved {V : Type} (h : Hooks V) (name : String)
    (f0 : List (Option V) → Except Unit (Option V)) (d0 : Option V)
    (regs : List ((List (Option V) → Except Unit (Option V)) × Option V))
    (f1 : List (Option V) → Except Unit (Option V)) (d1 : Option V)
    (hfresh : hooksLookup h name = none) :
    (hooksLookup
        (regs.foldl (fun acc fd => hooksRegister acc name fd.2 false fd.1)
          (hooksRegister h name d0 false f0)) name).map HookEntry.fallback = some d0 ∧
      ∀ g : Hooks V, (hooksLookup (hooksRegister g name d1 true f1) name).map HookEntry.fallback = some d1 := by
  constructor
  · have step : ∀ (g : Hooks V) (d : Option V)
        (f : List (Option V) → Except Unit (Option V)) (e : HookEntry V),
        hooksLookup g name = some e →
        hooksLookup (hooksRegister g name d false f) name = some ⟨f, e.fallback⟩ := by
      intro g d f e he
      unfold hooksRegister
      rw [he]
      exact hooksLookup_set_self g name ⟨f, e.fallback⟩
    have base : hooksLookup (hooksRegister h name d0 false f0) name = some ⟨f0, d0⟩ := by
      unfold hooksRegister
      rw [hfresh]
      exact hooksLookup_set_self h name ⟨f0, d0⟩
    have main : ∀ (regs0 : List ((List (Option V) → Except Unit (Option V)) × Option V))
        (g : Hooks V) (f : List (Option V) → Except Unit (Option V)),
        hooksLookup g name = some ⟨f, d0⟩ →
        (hooksLookup
          (regs0.foldl (fun acc fd => hooksRegister acc name fd.2 false fd.1) g) name).map
            HookEntry.fallback = some d0 := by
      intro regs0
      induction regs0 with
      | nil => intro g f hg; simp [hg]
      | cons fd rest ih =>
        intro g f hg
        simp only [List.foldl_cons]
        exact ih _ fd.1 (step g fd.2 fd.1 ⟨f, d0⟩ hg)
    exact main regs _ f0 base
  · intro g
    unfold hooksRegister
    cases hg : hooksLookup g name with
    | none => rw [hooksLookup_set_self]; rfl
    | some e => rw [hooksLookup_set_self]; rfl

/-- C7 witness: on an empty table, registering `("is_tag", fallback 1)` and
then re-registering twice without override keeps fallback `1`; registering
with override installs fallback `9`. -/
theorem hook_fallback_preserved_witness :
    (hooksLookup
        (([(fun _ => Except.ok (some 5), some 7), (fun _ => Except.error (), some 8)] :
            List ((List (Option Nat) → Except Unit (Option Nat)) × Option Nat)).foldl
          (fun acc fd => hooksRegister acc "is_tag" fd.2 false fd.1)
          (hooksRegister ([] : Hooks Nat) "is_tag" (some 1) false (fun _ => Except.ok none))) "is_tag").map
        HookEntry.fallback = some (some 1) ∧
      ∀ g : Hooks Nat,
        (hooksLookup (hooksRegister g "is_tag" (some 9) true (fun _ => Except.ok none)) "is_tag").map
          HookEntry.fallback = some (some 9) :=
  hook_fallback_preserved [] "is_tag" (fun _ => Except.ok none) (some 1) _ _ (some 9) rfl

/-- C9: the code evaluated at the failing input.  Calling `stop()` on a
module whose `_server` holds a running server closes the handle but leaves
`_server` bound to it: the module handle is never cleared to `None`,
because the source assigns the misspelled local `_serevr`. -/
theorem stop_leaves_handle (s : ServerHandle) :
    stopServer ⟨some s⟩ = some ⟨some ⟨true⟩⟩ ∧
      (stopServer ⟨some s⟩).map ServerModule.srv ≠ some none := by
  refine ⟨rfl, ?_⟩
  simp [stopServer]

/-! ### String-splitting lemmas -/

/-- Absence of a character from a string. -/
theorem noChar_append {c : Char} {a b : PyStr} (ha : ∀ x ∈ a, x ≠ c)
    (hb : ∀ x ∈ b, x ≠ c) : ∀ x ∈ a ++ b, x ≠ c := by
  intro x hx
  rcases List.mem_append.mp hx with h | h
  · exact ha x h
  · exact hb x h

theorem splitOnce_of_noChar (c : Char) (s : PyStr) (h : ∀ x ∈ s, x ≠ c) :
    splitOnceChar c s = none := by
  induction s with
  | nil => rfl
  | cons a rest ih =>
    have ha : a ≠ c := h a (by simp)
    simp only [splitOnceChar, if_neg ha]
    rw [ih fun x hx => h x (by simp [hx])]
    rfl

theorem splitOnce_append (c : Char) (a b : PyStr) (h : ∀ x ∈ a, x ≠ c) :
    splitOnceChar c (a ++ c :: b) = some (a, b) := by
  induction a with
  | nil => simp [splitOnceChar]
  | cons x rest ih =>
    have hx : x ≠ c := h x (by simp)
    simp only [List.cons_append, splitOnceChar, if_neg hx, List.append_eq]
    rw [ih fun y hy => h y (by simp [hy])]
    rfl

theorem splitOnce_eq_some (c : Char) (s p q : PyStr)
    (h : splitOnceChar c s = some (p, q)) :
    s = p ++ c :: q ∧ ∀ x ∈ p, x ≠ c := by
  induction s generalizing p with
  | nil => exact Option.noConfusion h
  | cons a rest ih =>
    by_cases ha : a = c
    · simp only [splitOnceChar, if_pos ha] at h
      obtain ⟨h1, h2⟩ := Prod.mk.injEq .. ▸ Option.some.injEq .. ▸ h
      subst ha
      constructor
      · simp [← h1, ← h2]
      · intro x hx; rw [← h1] at hx; simp at hx
    · simp only [splitOnceChar, if_neg ha] at h
      cases hr : splitOnceChar c rest with
      | none => rw [hr] at h; simp at h
      | some pq =>
        rw [hr] at h
        simp only [Option.map_some', Option.some.injEq] at h
        obtain ⟨h1, h2⟩ := Prod.mk.injEq .. ▸ h
        obtain ⟨hs, hp⟩ := ih pq.1 ((by rw [hr, ← h2]) : splitOnceChar c rest = some (pq.1, q))
        constructor
        · rw [← h1, List.cons_append, ← hs]
        · intro x hx
          rw [← h1] at hx
          rcases List.mem_cons.mp hx with h | h
          · rw [h]; exact ha
          · exact hp x h

theorem splitLast_of_noChar (c : Char) (s : PyStr) (h : ∀ x ∈ s, x ≠ c) :
    splitLastChar c s = none := by
  induction s with
  | nil => rfl
  | cons a rest ih =>
    have ha : a ≠ c := h a (by simp)
    simp only [splitLastChar]
    rw [ih fun x hx => h x (by simp [hx])]
    simp [ha]

theorem splitLast_append (c : Char) (a b : PyStr) (h : ∀ x ∈ b, x ≠ c) :
    splitLastChar c (a ++ c :: b) = some (a, b) := by
  induction a with
  | nil =>
    simp only [List.nil_append, splitLastChar]
    rw [splitLast_of_noChar c b h]
    simp
  | cons x rest ih =>
    simp only [List.cons_append, splitLastChar, List.append_eq]
    rw [ih]

theorem splitLast_none (c : Char) (s : PyStr)
    (h : splitLastChar c s = none) : ∀ x ∈ s, x ≠ c := by
  induction s with
  | nil => intro x hx; simp at hx
  | cons a rest ih =>
    simp only [splitLastChar] at h
    cases hr : splitLastChar c rest with
    | some pq => rw [hr] at h; exact Option.noConfusion h
    | none =>
      rw [hr] at h
      by_cases ha : a = c
      · rw [if_pos ha] at h; exact Option.noConfusion h
      · intro x hx
        rcases List.mem_cons.mp hx with hx | hx
        · rw [hx]; exact ha
        · exact ih hr x hx

theorem splitLast_eq_some (c : Char) (s p q : PyStr)
    (h : splitLastChar c s = some (p, q)) :
    s = p ++ c :: q ∧ ∀ x ∈ q, x ≠ c := by
  induction s generalizing p with
  | nil => exact Option.noConfusion h
  | cons a rest ih =>
    simp only [splitLastChar] at h
    cases hr : splitLastChar c rest with
    | some pq =>
      rw [hr] at h
      simp only [Option.some.injEq, Prod.mk.injEq] at h
      obtain ⟨h1, h2⟩ := h
      obtain ⟨hs, hq⟩ := ih pq.1 (by rw [hr, ← h2])
      subst h1
      constructor
      · rw [List.cons_append, ← hs]
      · exact hq
    | none =>
      rw [hr] at h
      by_cases ha : a = c
      · rw [if_pos ha] at h
        simp only [Option.some.injEq, Prod.mk.injEq] at h
        obtain ⟨h1, h2⟩ := h
        subst h1; subst h2
        exact ⟨by rw [ha]; rfl, splitLast_none c rest hr⟩
      · rw [if_neg ha] at h
        exact Option.noConfusion h

/-! ### UTF-8 round-trip -/

theorem utf8Step_len (b : Nat) (rest : List Nat) :
    (utf8Step b rest).2.length ≤ rest.length := by
  unfold utf8Step
  repeat' split
  all_goals simp_all
  all_goals omega

theorem utf8DecodeGo_eq : ∀ (f1 f2 : Nat) (bs : List Nat),
    bs.length ≤ f1 → bs.length ≤ f2 → utf8DecodeGo f1 bs = utf8DecodeGo f2 bs := by
  intro f1
  induction f1 with
  | zero =>
    intro f2 bs h1 _
    cases bs with
    | nil => cases f2 <;> rfl
    | cons b rest => simp at h1
  | succ f ih =>
    intro f2 bs h1 h2
    cases bs with
    | nil => cases f2 <;> rfl
    | cons b rest =>
      cases f2 with
      | zero => simp at h2
      | succ g =>
        simp only [utf8DecodeGo]
        congr 1
        have hl := utf8Step_len b rest
        simp only [List.length_cons] at h1 h2
        exact ih g _ (by omega) (by omega)

theorem utf8Decode_cons (b : Nat) (rest : List Nat) :
    utf8DecodeReplace (b :: rest) =
      (utf8Step b rest).1 :: utf8DecodeReplace (utf8Step b rest).2 := by
  unfold utf8DecodeReplace
  simp only [List.length_cons, utf8DecodeGo]
  congr 1
  exact utf8DecodeGo_eq _ _ _ (le_trans (utf8Step_len b rest) (Nat.le_refl _)) (Nat.le_refl _)

theorem utf8Step_ascii (b : Nat) (rest : List Nat) (h : b < 128) :
    utf8Step b rest = (Char.ofNat b, rest) := by
  unfold utf8Step
  rw [if_pos h]

theorem utf8Step_two (b b2 : Nat) (rest : List Nat) (h1 : 194 ≤ b) (h2 : b ≤ 223)
    (h3 : 128 ≤ b2) (h4 : b2 < 192) :
    utf8Step b (b2 :: rest) = (Char.ofNat ((b - 192) * 64 + (b2 - 128)), rest) := by
  unfold utf8Step
  rw [if_neg (by omega), if_pos ⟨h1, h2⟩]
  simp only
  rw [if_pos ⟨h3, h4⟩]

theorem utf8Step_three (b b2 b3 : Nat) (rest : List Nat) (h1 : 224 ≤ b) (h2 : b ≤ 239)
    (h3 : 128 ≤ b2) (h4 : b2 < 192) (h5 : 128 ≤ b3) (h6 : b3 < 192)
    (h7 : 2048 ≤ (b - 224) * 4096 + (b2 - 128) * 64 + (b3 - 128))
    (h8 : ¬ (55296 ≤ (b - 224) * 4096 + (b2 - 128) * 64 + (b3 - 128) ∧
        (b - 224) * 4096 + (b2 - 128) * 64 + (b3 - 128) ≤ 57343)) :
    utf8Step b (b2 :: b3 :: rest) =
      (Char.ofNat ((b - 224) * 4096 + (b2 - 128) * 64 + (b3 - 128)), rest) := by
  unfold utf8Step
  rw [if_neg (by omega), if_neg (by omega), if_pos ⟨h1, h2⟩]
  simp only
  rw [if_pos ⟨⟨h3, h4⟩, ⟨h5, h6⟩, h7, h8⟩]

theorem utf8Step_four (b b2 b3 b4 : Nat) (rest : List Nat) (h1 : 240 ≤ b) (h2 : b ≤ 244)
    (h3 : 128 ≤ b2) (h4 : b2 < 192) (h5 : 128 ≤ b3) (h6 : b3 < 192)
    (h7 : 128 ≤ b4) (h8 : b4 < 192)
    (h9 : 65536 ≤ (b - 240) * 262144 + (b2 - 128) * 4096 + (b3 - 128) * 64 + (b4 - 128))
    (h10 : (b - 240) * 262144 + (b2 - 128) * 4096 + (b3 - 128) * 64 + (b4 - 128) ≤ 1114111) :
    utf8Step b (b2 :: b3 :: b4 :: rest) =
      (Char.ofNat ((b - 240) * 262144 + (b2 - 128) * 4096 + (b3 - 128) * 64 + (b4 - 128)),
        rest) := by
  unfold utf8Step
  rw [if_neg (by omega), if_neg (by omega), if_neg (by omega), if_pos ⟨h1, h2⟩]
  simp only
  rw [if_pos ⟨⟨h3, h4⟩, ⟨h5, h6⟩, ⟨h7, h8⟩, h9, h10⟩]

theorem char_valid_ranges (c : Char) :
    c.toNat < 55296 ∨ (57343 < c.toNat ∧ c.toNat < 1114112) := by
  rcases c.valid with h | h
  · exact Or.inl h
  · exact Or.inr ⟨h.1, h.2⟩

theorem utf8Decode_encodeChar (c : Char) (bs : List Nat) :
    utf8DecodeReplace (utf8EncodeChar c ++ bs) = c :: utf8DecodeReplace bs := by
  have hv := char_valid_ranges c
  by_cases r1 : c.toNat < 128
  · have he : utf8EncodeChar c = [c.toNat] := by unfold utf8EncodeChar; rw [if_pos r1]
    rw [he, List.cons_append, List.nil_append, utf8Decode_cons,
      utf8Step_ascii _ _ r1, Char.ofNat_toNat]
  · by_cases r2 : c.toNat < 2048
    · have he : utf8EncodeChar c = [192 + c.toNat / 64, 128 + c.toNat % 64] := by
        unfold utf8EncodeChar
        rw [if_neg r1, if_pos r2]
      rw [he]
      simp only [List.cons_append, List.nil_append]
      rw [utf8Decode_cons, utf8Step_two _ _ _ (by omega) (by omega) (by omega) (by omega)]
      have harg : (192 + c.toNat / 64 - 192) * 64 + (128 + c.toNat % 64 - 128) = c.toNat := by
        omega
      rw [harg, Char.ofNat_toNat]
    · by_cases r3 : c.toNat < 65536
      · have he : utf8EncodeChar c =
            [224 + c.toNat / 4096, 128 + c.toNat / 64 % 64, 128 + c.toNat % 64] := by
          unfold utf8EncodeChar
          rw [if_neg r1, if_neg r2, if_pos r3]
        rw [he]
        simp only [List.cons_append, List.nil_append]
        have harg : (224 + c.toNat / 4096 - 224) * 4096 +
            (128 + c.toNat / 64 % 64 - 128) * 64 + (128 + c.toNat % 64 - 128) = c.toNat := by
          omega
        rw [utf8Decode_cons, utf8Step_three _ _ _ _ (by omega) (by omega) (by omega)
          (by omega) (by omega) (by omega) (by omega) (by omega)]
        rw [harg, Char.ofNat_toNat]
      · have he : utf8EncodeChar c =
            [240 + c.toNat / 262144, 128 + c.toNat / 4096 % 64,
             128 + c.toNat / 64 % 64, 128 + c.toNat % 64] := by
          unfold utf8EncodeChar
          rw [if_neg r1, if_neg r2, if_neg r3]
        rw [he]
        simp only [List.cons_append, List.nil_append]
        have harg : (240 + c.toNat / 262144 - 240) * 262144 +
            (128 + c.toNat / 4096 % 64 - 128) * 4096 +
            (128 + c.toNat / 64 % 64 - 128) * 64 + (128 + c.toNat % 64 - 128) = c.toNat := by
          omega
        rw [utf8Decode_cons, utf8Step_four _ _ _ _ _ (by omega) (by omega) (by omega)
          (by omega) (by omega) (by omega) (by omega) (by omega) (by omega) (by omega)]
        rw [harg, Char.ofNat_toNat]

theorem utf8Decode_encodeStr_append (s : PyStr) (bs : List Nat) :
    utf8DecodeReplace (utf8EncodeStr s ++ bs) = s ++ utf8DecodeReplace bs := by
  induction s with
  | nil => simp [utf8EncodeStr]
  | cons c rest ih =>
    simp only [utf8EncodeStr, List.map_cons, List.flatten_cons, List.append_assoc]
    rw [utf8Decode_encodeChar]
    simp only [List.cons_append]
    rw [← utf8EncodeStr, ih]

theorem utf8Decode_encodeStr (s : PyStr) :
    utf8DecodeReplace (utf8EncodeStr s) = s := by
  have := utf8Decode_encodeStr_append s []
  simpa [utf8DecodeReplace, utf8DecodeGo] using this

/-! ### Percent-quoting round-trip -/

theorem char_eq_iff_toNat (c d : Char) : c = d ↔ c.toNat = d.toNat := by
  constructor
  · intro h; rw [h]
  · intro h
    have hc := Char.ofNat_toNat c
    rw [← hc, h, Char.ofNat_toNat]

theorem utf8EncodeChar_lt (c : Char) : ∀ b ∈ utf8EncodeChar c, b < 256 := by
  have hv := char_valid_ranges c
  have hlt : c.toNat < 1114112 := by rcases hv with h | h <;> omega
  intro b hb
  unfold utf8EncodeChar at hb
  by_cases r1 : c.toNat < 128
  · rw [if_pos r1] at hb
    simp only [List.mem_singleton] at hb
    omega
  · rw [if_neg r1] at hb
    by_cases r2 : c.toNat < 2048
    · rw [if_pos r2] at hb
      simp only [List.mem_cons, List.mem_singleton, List.not_mem_nil, or_false] at hb
      rcases hb with rfl | rfl <;> omega
    · rw [if_neg r2] at hb
      by_cases r3 : c.toNat < 65536
      · rw [if_pos r3] at hb
        simp only [List.mem_cons, List.not_mem_nil, or_false] at hb
        rcases hb with rfl | rfl | rfl <;> omega
      · rw [if_neg r3] at hb
        simp only [List.mem_cons, List.not_mem_nil, or_false] at hb
        rcases hb with rfl | rfl | rfl | rfl <;> omega

theorem utf8EncodeChar_ne_nil (c : Char) : utf8EncodeChar c ≠ [] := by
  unfold utf8EncodeChar
  by_cases r1 : c.toNat < 128
  · rw [if_pos r1]; simp
  · rw [if_neg r1]
    by_cases r2 : c.toNat < 2048
    · rw [if_pos r2]; simp
    · rw [if_neg r2]
      by_cases r3 : c.toNat < 65536
      · rw [if_pos r3]; simp
      · rw [if_neg r3]; simp

theorem hexVal_hexDigit : ∀ n, n < 16 → hexVal (hexDigit n) = some n := by decide

theorem alwaysSafe_hexDigit : ∀ n, n < 16 → alwaysSafe (hexDigit n) = true := by decide

theorem alwaysSafe_ne (c d : Char) (h : alwaysSafe c = true)
    (hd : alwaysSafe d = false) : c ≠ d := by
  intro he
  rw [he, hd] at h
  exact Bool.noConfusion h

theorem alwaysSafe_toNat_ge (c : Char) (h : alwaysSafe c = true) : 33 ≤ c.toNat := by
  unfold alwaysSafe isAlphaAscii isDigitAscii at h
  simp only [Bool.or_eq_true, Bool.and_eq_true, decide_eq_true_eq] at h
  rcases h with (((((h1 | h2) | h3) | h4) | h5) | h6) | h7
  · omega
  · omega
  · omega
  · subst h4; decide
  · subst h5; decide
  · subst h6; decide
  · subst h7; decide

theorem unquoteStep_len (c : Char) (rest : PyStr) :
    (unquoteStep c rest).2.length ≤ rest.length := by
  unfold unquoteStep
  repeat' split
  all_goals simp_all
  all_goals omega

theorem unquoteGo_eq : ∀ (f1 f2 : Nat) (s : PyStr),
    s.length ≤ f1 → s.length ≤ f2 → unquoteGo f1 s = unquoteGo f2 s := by
  intro f1
  induction f1 with
  | zero =>
    intro f2 s h1 _
    cases s with
    | nil => cases f2 <;> rfl
    | cons c rest => simp at h1
  | succ f ih =>
    intro f2 s h1 h2
    cases s with
    | nil => cases f2 <;> rfl
    | cons c rest =>
      cases f2 with
      | zero => simp at h2
      | succ g =>
        simp only [unquoteGo]
        congr 1
        have hl := unquoteStep_len c rest
        simp only [List.length_cons] at h1 h2
        exact ih g _ (by omega) (by omega)

theorem unquoteBytes_cons (c : Char) (rest : PyStr) :
    unquoteBytes (c :: rest) =
      (unquoteStep c rest).1 ++ unquoteBytes (unquoteStep c rest).2 := by
  unfold unquoteBytes
  simp only [List.length_cons, unquoteGo]
  congr 1
  exact unquoteGo_eq _ _ _ (le_trans (unquoteStep_len c rest) (Nat.le_refl _)) (Nat.le_refl _)

theorem unquoteStep_lit (c : Char) (rest : PyStr) (h : c ≠ '%') :
    unquoteStep c rest = (utf8EncodeChar c, rest) := by
  unfold unquoteStep
  rw [if_neg h]

theorem unquoteStep_pct (c1 c2 : Char) (rest : PyStr) (hi lo : Nat)
    (h1 : hexVal c1 = some hi) (h2 : hexVal c2 = some lo) :
    unquoteStep '%' (c1 :: c2 :: rest) = ([16 * hi + lo], rest) := by
  unfold unquoteStep
  rw [if_pos rfl]
  simp only [h1, h2]

theorem unquoteBytes_quoteBytes (bs : List Nat) (hb : ∀ b ∈ bs, b < 256) (t : PyStr) :
    unquoteBytes ((bs.map quoteByte).flatten ++ t) = bs ++ unquoteBytes t := by
  induction bs with
  | nil => simp
  | cons b rest ih =>
    have hblt : b < 256 := hb b (by simp)
    simp only [List.map_cons, List.flatten_cons, quoteByte, List.append_assoc,
      List.cons_append, List.nil_append]
    rw [unquoteBytes_cons, unquoteStep_pct _ _ _ (b / 16) (b % 16)
      (hexVal_hexDigit _ (by omega)) (hexVal_hexDigit _ (by omega))]
    simp only [List.cons_append, List.nil_append]
    have harg : 16 * (b / 16) + b % 16 = b := by omega
    rw [harg, ih (fun x hx => hb x (by simp [hx]))]

theorem plusToSpace_eq_self (s : PyStr) (h : ∀ x ∈ s, x ≠ '+') :
    plusToSpace s = s := by
  induction s with
  | nil => rfl
  | cons c rest ih =>
    have hc : c ≠ '+' := h c (by simp)
    simp only [plusToSpace, List.map_cons, if_neg hc]
    have := ih fun x hx => h x (by simp [hx])
    simp only [plusToSpace] at this
    rw [this]

theorem unquote_plus_quote_append (s : PyStr) (u : PyStr) :
    unquoteBytes (plusToSpace (quotePlus s) ++ u) = utf8EncodeStr s ++ unquoteBytes u := by
  induction s with
  | nil => simp [quotePlus, plusToSpace, utf8EncodeStr]
  | cons c rest ih =>
    have hqp : quotePlus (c :: rest) = quotePlusChar c ++ quotePlus rest := by
      simp [quotePlus]
    rw [hqp]
    have hdist : plusToSpace (quotePlusChar c ++ quotePlus rest) =
        plusToSpace (quotePlusChar c) ++ plusToSpace (quotePlus rest) := by
      simp [plusToSpace]
    rw [hdist, List.append_assoc]
    have henc : utf8EncodeStr (c :: rest) = utf8EncodeChar c ++ utf8EncodeStr rest := by
      simp [utf8EncodeStr]
    rw [henc, List.append_assoc]
    by_cases hsafe : alwaysSafe c = true
    · have hplus : c ≠ '+' := alwaysSafe_ne c '+' hsafe (by decide)
      have hpct : c ≠ '%' := alwaysSafe_ne c '%' hsafe (by decide)
      have hq : quotePlusChar c = [c] := by unfold quotePlusChar; rw [if_pos hsafe]
      rw [hq, plusToSpace_eq_self [c] (by intro x hx; simp at hx; rw [hx]; exact hplus)]
      simp only [List.cons_append, List.nil_append]
      rw [unquoteBytes_cons, unquoteStep_lit c _ hpct]
      simp only [List.append_assoc, ih]
    · by_cases hsp : c = ' '
      · subst hsp
        have hq : quotePlusChar ' ' = ['+'] := by decide
        rw [hq]
        have hpts : plusToSpace ['+'] = [' '] := by decide
        rw [hpts]
        simp only [List.cons_append, List.nil_append]
        rw [unquoteBytes_cons, unquoteStep_lit ' ' _ (by decide)]
        simp only [List.append_assoc, ih]
      · have hq : quotePlusChar c = ((utf8EncodeChar c).map quoteByte).flatten := by
          unfold quotePlusChar
          rw [if_neg hsafe, if_neg hsp]
        rw [hq]
        have hnoplus : ∀ x ∈ ((utf8EncodeChar c).map quoteByte).flatten, x ≠ '+' := by
          intro x hx
          rw [List.mem_flatten] at hx
          obtain ⟨l, hl, hxl⟩ := hx
          rw [List.mem_map] at hl
          obtain ⟨b, hbm, hbq⟩ := hl
          have hblt : b < 256 := utf8EncodeChar_lt c b hbm
          rw [← hbq] at hxl
          unfold quoteByte at hxl
          simp only [List.mem_cons, List.not_mem_nil, or_false] at hxl
          rcases hxl with rfl | rfl | rfl
          · decide
          · exact alwaysSafe_ne _ '+' (alwaysSafe_hexDigit _ (by omega)) (by decide)
          · exact alwaysSafe_ne _ '+' (alwaysSafe_hexDigit _ (by omega)) (by decide)
        rw [plusToSpace_eq_self _ hnoplus,
          unquoteBytes_quoteBytes _ (utf8EncodeChar_lt c) _]
        rw [ih]

theorem unquotePlus_quotePlus (s : PyStr) : unquotePlus (quotePlus s) = s := by
  unfold unquotePlus
  have h := unquote_plus_quote_append s []
  rw [List.append_nil] at h
  have hnil : unquoteBytes [] = [] := rfl
  rw [hnil, List.append_nil] at h
  rw [h, utf8Decode_encodeStr]

/-! ### parse_qs and urlencode round-trip -/

theorem splitAll_of_noChar (c : Char) (q : PyStr) (h : ∀ x ∈ q, x ≠ c) :
    splitAllChar c q = [q] := by
  induction q with
  | nil => rfl
  | cons a rest ih =>
    have ha : a ≠ c := h a (by simp)
    simp only [splitAllChar, if_neg ha]
    rw [ih fun x hx => h x (by simp [hx])]

theorem splitAll_append_cons (c : Char) (q t : PyStr) (h : ∀ x ∈ q, x ≠ c) :
    splitAllChar c (q ++ c :: t) = q :: splitAllChar c t := by
  induction q with
  | nil => simp [splitAllChar]
  | cons a rest ih =>
    have ha : a ≠ c := h a (by simp)
    simp only [List.cons_append, splitAllChar, if_neg ha, List.append_eq]
    rw [ih fun x hx => h x (by simp [hx])]

theorem splitAll_intercalate (c : Char) (ps : List PyStr)
    (h : ∀ p ∈ ps, ∀ x ∈ p, x ≠ c) (hne : ps ≠ []) :
    splitAllChar c (pyIntercalate [c] ps) = ps := by
  induction ps with
  | nil => exact absurd rfl hne
  | cons p rest ih =>
    cases rest with
    | nil => exact splitAll_of_noChar c p (h p (by simp))
    | cons p2 rest2 =>
      have : pyIntercalate [c] (p :: p2 :: rest2) = p ++ c :: pyIntercalate [c] (p2 :: rest2) := by
        simp [pyIntercalate]
      rw [this, splitAll_append_cons c _ _ (h p (by simp))]
      rw [ih (fun q hq => h q (by simp [hq])) (by simp)]

theorem quotePlusChar_mem (c x : Char) (hx : x ∈ quotePlusChar c) :
    alwaysSafe x = true ∨ x = '+' ∨ x = '%' := by
  unfold quotePlusChar at hx
  by_cases hsafe : alwaysSafe c = true
  · rw [if_pos hsafe] at hx
    simp only [List.mem_singleton] at hx
    subst hx
    exact Or.inl hsafe
  · rw [if_neg hsafe] at hx
    by_cases hsp : c = ' '
    · rw [if_pos hsp] at hx
      simp only [List.mem_singleton] at hx
      exact Or.inr (Or.inl hx)
    · rw [if_neg hsp] at hx
      rw [List.mem_flatten] at hx
      obtain ⟨l, hl, hxl⟩ := hx
      rw [List.mem_map] at hl
      obtain ⟨b, hbm, hbq⟩ := hl
      have hblt : b < 256 := utf8EncodeChar_lt c b hbm
      rw [← hbq] at hxl
      unfold quoteByte at hxl
      simp only [List.mem_cons, List.not_mem_nil, or_false] at hxl
      rcases hxl with rfl | rfl | rfl
      · exact Or.inr (Or.inr rfl)
      · exact Or.inl (alwaysSafe_hexDigit _ (by omega))
      · exact Or.inl (alwaysSafe_hexDigit _ (by omega))

theorem quotePlus_mem (s : PyStr) (x : Char) (hx : x ∈ quotePlus s) :
    alwaysSafe x = true ∨ x = '+' ∨ x = '%' := by
  unfold quotePlus at hx
  rw [List.mem_flatten] at hx
  obtain ⟨l, hl, hxl⟩ := hx
  rw [List.mem_map] at hl
  obtain ⟨cc, _, hcq⟩ := hl
  exact quotePlusChar_mem cc x (hcq ▸ hxl)

theorem quotePlus_noChar (s : PyStr) (d : Char) (hd1 : alwaysSafe d = false)
    (hd2 : d ≠ '+') (hd3 : d ≠ '%') : ∀ x ∈ quotePlus s, x ≠ d := by
  intro x hx
  rcases quotePlus_mem s x hx with hsafe | rfl | rfl
  · exact alwaysSafe_ne x d hsafe hd1
  · exact fun he => hd2 he.symm
  · exact fun he => hd3 he.symm

theorem quotePlusChar_ne_nil (c : Char) : quotePlusChar c ≠ [] := by
  unfold quotePlusChar
  by_cases hsafe : alwaysSafe c = true
  · rw [if_pos hsafe]; simp
  · rw [if_neg hsafe]
    by_cases hsp : c = ' '
    · rw [if_pos hsp]; simp
    · rw [if_neg hsp]
      cases he : utf8EncodeChar c with
      | nil => exact absurd he (utf8EncodeChar_ne_nil c)
      | cons b bs =>
        simp only [List.map_cons, List.flatten_cons]
        unfold quoteByte
        simp

theorem quotePlus_ne_nil (s : PyStr) (h : s ≠ []) : quotePlus s ≠ [] := by
  cases s with
  | nil => exact absurd rfl h
  | cons c rest =>
    unfold quotePlus
    simp only [List.map_cons, List.flatten_cons]
    intro hcon
    exact quotePlusChar_ne_nil c (List.append_eq_nil.mp hcon).1

theorem qslField_encoded (k v : PyStr) (hv : v ≠ []) :
    qslField (quotePlus k ++ '=' :: quotePlus v) = some (k, v) := by
  unfold qslField
  have hne : ¬ (quotePlus k ++ '=' :: quotePlus v).isEmpty = true := by
    simp
  rw [if_neg hne]
  rw [splitOnce_append '=' _ _ (quotePlus_noChar k '=' (by decide) (by decide) (by decide))]
  simp only
  have hvne : ¬ (quotePlus v).isEmpty = true := by
    rw [List.isEmpty_iff]
    exact quotePlus_ne_nil v hv
  rw [if_neg hvne, unquotePlus_quotePlus, unquotePlus_quotePlus]

theorem filterMap_qslField_fields (d : QueryDict)
    (hv : ∀ kv ∈ d, ∀ v ∈ kv.2, v ≠ []) :
    ((d.map fun kv => kv.2.map fun v => quotePlus kv.1 ++ '=' :: quotePlus v).flatten).filterMap
        qslField = flattenPairs d := by
  induction d with
  | nil => rfl
  | cons kv rest ih =>
    simp only [List.map_cons, List.flatten_cons, List.filterMap_append]
    unfold flattenPairs
    simp only [List.map_cons, List.flatten_cons]
    have htail := ih fun kv2 h2 => hv kv2 (by simp [h2])
    unfold flattenPairs at htail
    rw [htail]
    congr 1
    rw [List.filterMap_map]
    have hcongr : ∀ v ∈ kv.2,
        (qslField ∘ fun v => quotePlus kv.1 ++ '=' :: quotePlus v) v =
          (some ∘ fun v => (kv.1, v)) v := by
      intro v hvm
      exact qslField_encoded kv.1 v (hv kv (by simp) v hvm)
    rw [List.filterMap_congr hcongr, List.filterMap_eq_map]

theorem parseQsl_urlencode (d : QueryDict) (hv : ∀ kv ∈ d, ∀ v ∈ kv.2, v ≠ []) :
    parseQsl (urlencodeDoseq d) = flattenPairs d := by
  unfold parseQsl urlencodeDoseq
  cases hf : (d.map fun kv => kv.2.map fun v => quotePlus kv.1 ++ '=' :: quotePlus v).flatten with
  | nil =>
    have := filterMap_qslField_fields d hv
    rw [hf] at this
    rw [← this]
    rfl
  | cons f fs =>
    rw [← hf]
    rw [splitAll_intercalate '&' _ ?hnoamp (by rw [hf]; simp)]
    case hnoamp =>
      intro p hp x hx
      rw [List.mem_flatten] at hp
      obtain ⟨l, hl, hpl⟩ := hp
      rw [List.mem_map] at hl
      obtain ⟨kv, _, hkl⟩ := hl
      rw [← hkl] at hpl
      rw [List.mem_map] at hpl
      obtain ⟨v, _, hvf⟩ := hpl
      rw [← hvf] at hx
      rcases List.mem_append.mp hx with h | h
      · exact quotePlus_noChar kv.1 '&' (by decide) (by decide) (by decide) x h
      · rcases List.mem_cons.mp h with rfl | h
        · decide
        · exact quotePlus_noChar v '&' (by decide) (by decide) (by decide) x h
    exact filterMap_qslField_fields d hv

theorem qsLookup_none_iff (d : QueryDict) (k : PyStr) :
    qsLookup d k = none ↔ k ∉ d.map Prod.fst := by
  induction d with
  | nil => simp [qsLookup]
  | cons kv rest ih =>
    obtain ⟨k0, b0⟩ := kv
    by_cases hk : k0 = k
    · simp [qsLookup, hk]
    · simp only [qsLookup, if_neg hk, List.map_cons, List.mem_cons]
      rw [ih]
      constructor
      · intro h hc
        rcases hc with hc | hc
        · exact hk hc.symm
        · exact h hc
      · intro h hc
        exact h (Or.inr hc)

theorem qsLookup_append_self (d : QueryDict) (k : PyStr) (b : List PyStr)
    (h : qsLookup d k = none) : qsLookup (d ++ [(k, b)]) k = some b := by
  induction d with
  | nil => simp [qsLookup]
  | cons kv rest ih =>
    obtain ⟨k0, b0⟩ := kv
    by_cases hk : k0 = k
    · simp [qsLookup, hk] at h
    · simp only [qsLookup, if_neg hk, List.cons_append] at h ⊢
      exact ih h

theorem qsLookup_append_none (d : QueryDict) (k x : PyStr) (b : List PyStr)
    (hx : qsLookup d x = none) (hk : x ≠ k) :
    qsLookup (d ++ [(k, b)]) x = none := by
  induction d with
  | nil =>
    simp only [List.nil_append, qsLookup]
    rw [if_neg fun he => hk he.symm]
  | cons kv rest ih =>
    obtain ⟨k0, b0⟩ := kv
    by_cases hk0 : k0 = x
    · simp [qsLookup, hk0] at hx
    · simp only [qsLookup, if_neg hk0, List.cons_append] at hx ⊢
      exact ih hx

theorem qsAppendAt_append_self (d0 : QueryDict) (k : PyStr) (b : List PyStr) (v : PyStr)
    (h : qsLookup d0 k = none) :
    qsAppendAt (d0 ++ [(k, b)]) k v = d0 ++ [(k, b ++ [v])] := by
  induction d0 with
  | nil => simp [qsAppendAt]
  | cons kv rest ih =>
    obtain ⟨k0, b0⟩ := kv
    by_cases hk : k0 = k
    · simp [qsLookup, hk] at h
    · simp only [qsLookup, if_neg hk] at h
      simp only [List.cons_append, qsAppendAt, if_neg hk, List.append_eq]
      rw [ih h]

theorem qsInsert_fresh (d : QueryDict) (k v : PyStr) (h : qsLookup d k = none) :
    qsInsert d k v = d ++ [(k, [v])] := by
  unfold qsInsert
  rw [h]

theorem qsInsert_last (d0 : QueryDict) (k : PyStr) (b : List PyStr) (v : PyStr)
    (h : qsLookup d0 k = none) :
    qsInsert (d0 ++ [(k, b)]) k v = d0 ++ [(k, b ++ [v])] := by
  unfold qsInsert
  rw [qsLookup_append_self d0 k b h]
  exact qsAppendAt_append_self d0 k b v h

theorem qsFold_same (d0 : QueryDict) (k : PyStr) (b vs : List PyStr)
    (h : qsLookup d0 k = none) :
    (vs.map fun v => (k, v)).foldl (fun a nv => qsInsert a nv.1 nv.2) (d0 ++ [(k, b)]) =
      d0 ++ [(k, b ++ vs)] := by
  induction vs generalizing b with
  | nil => simp
  | cons v vs2 ih =>
    simp only [List.map_cons, List.foldl_cons]
    rw [qsInsert_last d0 k b v h, ih (b ++ [v])]
    simp

theorem qsFold_flatten (d : QueryDict) (acc : QueryDict)
    (hdisj : ∀ kv ∈ d, qsLookup acc kv.1 = none)
    (hkeys : (d.map Prod.fst).Nodup)
    (hbne : ∀ kv ∈ d, kv.2 ≠ []) :
    (flattenPairs d).foldl (fun a nv => qsInsert a nv.1 nv.2) acc = acc ++ d := by
  induction d generalizing acc with
  | nil => simp [flattenPairs]
  | cons kv rest ih =>
    obtain ⟨k, vs⟩ := kv
    cases vs with
    | nil => exact absurd rfl (hbne (k, []) (by simp))
    | cons v vs2 =>
      have hsplit : flattenPairs ((k, v :: vs2) :: rest) =
          ((v :: vs2).map fun v => (k, v)) ++ flattenPairs rest := by
        unfold flattenPairs
        simp
      rw [hsplit, List.foldl_append]
      have hfresh : qsLookup acc k = none := hdisj (k, v :: vs2) (by simp)
      simp only [List.map_cons, List.foldl_cons]
      rw [qsInsert_fresh acc k v hfresh, qsFold_same acc k [v] vs2 hfresh]
      simp only [List.singleton_append]
      have hknotin : k ∉ rest.map Prod.fst := by
        simp only [List.map_cons, List.nodup_cons] at hkeys
        exact hkeys.1
      rw [ih (acc ++ [(k, v :: vs2)]) ?hd2 ?hk2 (fun kv2 h2 => hbne kv2 (by simp [h2]))]
      · simp
      case hd2 =>
        intro kv2 h2
        have hne : kv2.1 ≠ k := by
          intro he
          exact hknotin (he ▸ List.mem_map_of_mem Prod.fst h2)
        exact qsLookup_append_none acc k kv2.1 _ (hdisj kv2 (by simp [h2])) hne
      case hk2 =>
        simp only [List.map_cons, List.nodup_cons] at hkeys
        exact hkeys.2

theorem parseQs_urlencode (d : QueryDict) (hwf : QueryWF d) :
    parseQs (urlencodeDoseq d) = d := by
  unfold parseQs
  rw [parseQsl_urlencode d (fun kv h => (hwf.2 kv h).2)]
  have := qsFold_flatten d [] (fun kv _ => rfl) hwf.1 (fun kv h => (hwf.2 kv h).1)
  simpa using this

theorem unquoteStep_fst_ne_nil (c : Char) (rest : PyStr) :
    (unquoteStep c rest).1 ≠ [] := by
  unfold unquoteStep
  repeat' split
  all_goals simp [utf8EncodeChar_ne_nil]

theorem unquoteBytes_ne_nil (s : PyStr) (h : s ≠ []) : unquoteBytes s ≠ [] := by
  cases s with
  | nil => exact absurd rfl h
  | cons c rest =>
    rw [unquoteBytes_cons]
    intro hcon
    exact unquoteStep_fst_ne_nil c rest (List.append_eq_nil.mp hcon).1

theorem utf8Decode_ne_nil (bs : List Nat) (h : bs ≠ []) : utf8DecodeReplace bs ≠ [] := by
  cases bs with
  | nil => exact absurd rfl h
  | cons b rest =>
    rw [utf8Decode_cons]
    simp

theorem unquotePlus_ne_nil (s : PyStr) (h : s ≠ []) : unquotePlus s ≠ [] := by
  unfold unquotePlus
  apply utf8Decode_ne_nil
  apply unquoteBytes_ne_nil
  unfold plusToSpace
  simp only [ne_eq, List.map_eq_nil_iff]
  exact h

theorem parseQsl_values_ne (qs : PyStr) : ∀ nv ∈ parseQsl qs, nv.2 ≠ [] := by
  intro nv hnv
  unfold parseQsl at hnv
  rw [List.mem_filterMap] at hnv
  obtain ⟨piece, _, hq⟩ := hnv
  unfold qslField at hq
  by_cases hemp : piece.isEmpty = true
  · rw [if_pos hemp] at hq; exact Option.noConfusion hq
  · rw [if_neg hemp] at hq
    cases hsp : splitOnceChar '=' piece with
    | none => rw [hsp] at hq; exact Option.noConfusion hq
    | some p =>
      rw [hsp] at hq
      simp only at hq
      by_cases hv : p.2.isEmpty = true
      · rw [if_pos hv] at hq; exact Option.noConfusion hq
      · rw [if_neg hv] at hq
        simp only [Option.some.injEq] at hq
        rw [← hq]
        simp only
        apply unquotePlus_ne_nil
        rw [List.isEmpty_iff] at hv
        exact hv

theorem qsAppendAt_map_fst (d : QueryDict) (k v : PyStr) :
    (qsAppendAt d k v).map Prod.fst = d.map Prod.fst := by
  induction d with
  | nil => rfl
  | cons kv rest ih =>
    obtain ⟨k0, b0⟩ := kv
    by_cases hk : k0 = k
    · simp [qsAppendAt, hk]
    · simp only [qsAppendAt, if_neg hk, List.map_cons]
      rw [ih]

theorem qsAppendAt_mem (d : QueryDict) (k v : PyStr) :
    ∀ kv ∈ qsAppendAt d k v, ∃ kv0 ∈ d, kv.1 = kv0.1 ∧
      (kv.2 = kv0.2 ∨ kv.2 = kv0.2 ++ [v]) := by
  induction d with
  | nil => intro kv h; simp [qsAppendAt] at h
  | cons kv0 rest ih =>
    obtain ⟨k0, b0⟩ := kv0
    intro kv h
    by_cases hk : k0 = k
    · simp only [qsAppendAt, if_pos hk] at h
      rcases List.mem_cons.mp h with rfl | h
      · exact ⟨(k0, b0), by simp, rfl, Or.inr rfl⟩
      · exact ⟨kv, by simp [h], rfl, Or.inl rfl⟩
    · simp only [qsAppendAt, if_neg hk] at h
      rcases List.mem_cons.mp h with rfl | h
      · exact ⟨(k0, b0), by simp, rfl, Or.inl rfl⟩
      · obtain ⟨kv1, hkv1, he, hor⟩ := ih kv h
        exact ⟨kv1, by simp [hkv1], he, hor⟩

theorem qsFold_wf (ps : List (PyStr × PyStr)) (acc : QueryDict)
    (hv : ∀ nv ∈ ps, nv.2 ≠ []) (hacc : QueryWF acc) :
    QueryWF (ps.foldl (fun a nv => qsInsert a nv.1 nv.2) acc) := by
  induction ps generalizing acc with
  | nil => exact hacc
  | cons nv rest ih =>
    simp only [List.foldl_cons]
    apply ih _ (fun nv2 h2 => hv nv2 (by simp [h2]))
    unfold qsInsert
    cases hl : qsLookup acc nv.1 with
    | none =>
      constructor
      · rw [List.map_append]
        simp only [List.map_cons, List.map_nil]
        rw [List.nodup_append]
        refine ⟨hacc.1, by simp, ?_⟩
        intro x hx
        simp only [List.mem_singleton]
        intro he
        rw [qsLookup_none_iff] at hl
        exact hl (he ▸ hx)
      · intro kv hkv
        rcases List.mem_append.mp hkv with h | h
        · exact hacc.2 kv h
        · simp only [List.mem_singleton] at h
          subst h
          refine ⟨by simp, ?_⟩
          intro v hvm
          simp only [List.mem_singleton] at hvm
          subst hvm
          exact hv nv (by simp)
    | some b =>
      constructor
      · rw [qsAppendAt_map_fst]
        exact hacc.1
      · intro kv hkv
        obtain ⟨kv0, hkv0, _, hor⟩ := qsAppendAt_mem acc nv.1 nv.2 kv hkv
        have h0 := hacc.2 kv0 hkv0
        rcases hor with he | he
        · rw [he]; exact h0
        · rw [he]
          refine ⟨by simp, ?_⟩
          intro v hvm
          rcases List.mem_append.mp hvm with h | h
          · exact h0.2 v h
          · simp only [List.mem_singleton] at h
            subst h
            exact hv nv (by simp)

theorem parseQs_wf (qs : PyStr) : QueryWF (parseQs qs) :=
  qsFold_wf (parseQsl qs) [] (parseQsl_values_ne qs) ⟨List.nodup_nil, by simp⟩

/-! ### urlsplit and urlunsplit support lemmas -/

theorem contains_iff_mem (l : List Char) (c : Char) : l.contains c = true ↔ c ∈ l := by
  simp [List.contains]

theorem splitOnce_none (c : Char) (s : PyStr) (h : splitOnceChar c s = none) :
    ∀ x ∈ s, x ≠ c := by
  induction s with
  | nil => intro x hx; simp at hx
  | cons a rest ih =>
    by_cases ha : a = c
    · simp only [splitOnceChar, if_pos ha] at h
      exact Option.noConfusion h
    · simp only [splitOnceChar, if_neg ha] at h
      cases hr : splitOnceChar c rest with
      | some pq => rw [hr] at h; exact Option.noConfusion h
      | none =>
        intro x hx
        rcases List.mem_cons.mp hx with rfl | hx
        · exact ha
        · exact ih hr x hx

theorem toNat_ofNat_valid (n : Nat) (h1 : n < 55296) : (Char.ofNat n).toNat = n := by
  have hv : n.isValidChar := Or.inl h1
  simp [Char.ofNat, hv, Char.ofNatAux, Char.toNat, UInt32.toNat]

theorem lowerChar_toNat (c : Char) :
    (lowerChar c).toNat =
      if 65 ≤ c.toNat ∧ c.toNat ≤ 90 then c.toNat + 32 else c.toNat := by
  unfold lowerChar
  by_cases h : 65 ≤ c.toNat ∧ c.toNat ≤ 90
  · rw [if_pos h, if_pos h, toNat_ofNat_valid _ (by omega)]
  · rw [if_neg h, if_neg h]

theorem lowerChar_idem (c : Char) : lowerChar (lowerChar c) = lowerChar c := by
  rw [char_eq_iff_toNat, lowerChar_toNat (lowerChar c)]
  have hm := lowerChar_toNat c
  by_cases hc : 65 ≤ c.toNat ∧ c.toNat ≤ 90
  · rw [if_pos hc] at hm
    rw [hm, if_neg (by omega)]
  · rw [if_neg hc] at hm
    rw [hm, if_neg hc]

theorem pyLower_idem (s : PyStr) : pyLower (pyLower s) = pyLower s := by
  unfold pyLower
  rw [List.map_map]
  exact List.map_congr_left fun c _ => lowerChar_idem c

theorem lowerChar_eq_of_notlower (c d : Char) (hd : ¬(97 ≤ d.toNat ∧ d.toNat ≤ 122))
    (h : lowerChar c = d) : c = d := by
  rw [char_eq_iff_toNat] at h ⊢
  rw [lowerChar_toNat] at h
  by_cases hc : 65 ≤ c.toNat ∧ c.toNat ≤ 90
  · rw [if_pos hc] at h; omega
  · rw [if_neg hc] at h; exact h

theorem pyLower_noChar (p : PyStr) (d : Char) (hd : ¬(97 ≤ d.toNat ∧ d.toNat ≤ 122))
    (h : ∀ x ∈ p, x ≠ d) : ∀ x ∈ pyLower p, x ≠ d := by
  intro x hx
  unfold pyLower at hx
  rw [List.mem_map] at hx
  obtain ⟨c, hc, he⟩ := hx
  intro hxd
  exact h c hc (lowerChar_eq_of_notlower c d hd (he.trans hxd))

theorem isSchemeChar_iff (c : Char) :
    isSchemeChar c = true ↔
      (97 ≤ c.toNat ∧ c.toNat ≤ 122) ∨ (65 ≤ c.toNat ∧ c.toNat ≤ 90) ∨
      (48 ≤ c.toNat ∧ c.toNat ≤ 57) ∨ c.toNat = 43 ∨ c.toNat = 45 ∨ c.toNat = 46 := by
  unfold isSchemeChar isAlphaAscii isDigitAscii
  simp only [Bool.or_eq_true, Bool.and_eq_true, decide_eq_true_eq]
  constructor
  · intro h
    rcases h with ((((h | h) | h) | h) | h) | h
    · exact Or.inl h
    · exact Or.inr (Or.inl h)
    · exact Or.inr (Or.inr (Or.inl h))
    · subst h; exact Or.inr (Or.inr (Or.inr (Or.inl (by decide))))
    · subst h; exact Or.inr (Or.inr (Or.inr (Or.inr (Or.inl (by decide)))))
    · subst h; exact Or.inr (Or.inr (Or.inr (Or.inr (Or.inr (by decide)))))
  · intro h
    rcases h with h | h | h | h | h | h
    · exact Or.inl (Or.inl (Or.inl (Or.inl (Or.inl h))))
    · exact Or.inl (Or.inl (Or.inl (Or.inl (Or.inr h))))
    · exact Or.inl (Or.inl (Or.inl (Or.inr h)))
    · exact Or.inl (Or.inl (Or.inr (by rw [char_eq_iff_toNat, h]; decide)))
    · exact Or.inl (Or.inr (by rw [char_eq_iff_toNat, h]; decide))
    · exact Or.inr (by rw [char_eq_iff_toNat, h]; decide)

theorem isAlphaAscii_lowerChar (c : Char) (h : isAlphaAscii c = true) :
    isAlphaAscii (lowerChar c) = true := by
  unfold isAlphaAscii at h ⊢
  simp only [Bool.or_eq_true, Bool.and_eq_true, decide_eq_true_eq] at h ⊢
  rw [lowerChar_toNat]
  by_cases hc : 65 ≤ c.toNat ∧ c.toNat ≤ 90
  · rw [if_pos hc]; omega
  · rw [if_neg hc]; rcases h with h | h
    · omega
    · omega

theorem isSchemeChar_lowerChar (c : Char) (h : isSchemeChar c = true) :
    isSchemeChar (lowerChar c) = true := by
  rw [isSchemeChar_iff] at h ⊢
  rw [lowerChar_toNat]
  by_cases hc : 65 ≤ c.toNat ∧ c.toNat ≤ 90
  · rw [if_pos hc]; omega
  · rw [if_neg hc]; exact h

theorem schemeOKb_all (p : PyStr) (h : schemeOKb p = true) :
    ∀ x ∈ p, isSchemeChar x = true := by
  cases p with
  | nil => intro x hx; simp at hx
  | cons c rest =>
    unfold schemeOKb at h
    rw [Bool.and_eq_true, List.all_eq_true] at h
    exact h.2

theorem schemeOKb_noColon (p : PyStr) (h : schemeOKb p = true) : ∀ x ∈ p, x ≠ ':' := by
  intro x hx hxc
  have := schemeOKb_all p h x hx
  rw [hxc] at this
  exact Bool.noConfusion ((by decide : isSchemeChar ':' = false) ▸ this)

theorem schemeOKb_false_of_bad (p : PyStr) (x : Char) (hx : x ∈ p)
    (hbad : isSchemeChar x = false) : schemeOKb p = false := by
  by_cases h : schemeOKb p = true
  · have := schemeOKb_all p h x hx
    rw [hbad] at this
    exact Bool.noConfusion this
  · exact Bool.eq_false_iff.mpr h

theorem schemeOKb_head_false (c : Char) (t : PyStr) (h : isAlphaAscii c = false) :
    schemeOKb (c :: t) = false := by
  simp [schemeOKb, h]

theorem schemeOKb_lower (p : PyStr) (h : schemeOKb p = true) :
    schemeOKb (pyLower p) = true := by
  cases p with
  | nil => simp [schemeOKb] at h
  | cons c rest =>
    unfold schemeOKb at h
    rw [Bool.and_eq_true, List.all_eq_true] at h
    unfold pyLower
    simp only [List.map_cons]
    unfold schemeOKb
    rw [Bool.and_eq_true, List.all_eq_true]
    constructor
    · exact isAlphaAscii_lowerChar c h.1
    · intro x hx
      rw [← List.map_cons] at hx
      rw [List.mem_map] at hx
      obtain ⟨y, hy, he⟩ := hx
      rw [← he]
      exact isSchemeChar_lowerChar y (h.2 y hy)

theorem splitScheme_of_noColon (u : PyStr) (h : ∀ x ∈ u, x ≠ ':') :
    splitScheme u = ([], u) := by
  unfold splitScheme
  rw [splitOnce_of_noChar ':' u h]

theorem splitScheme_pos (p r : PyStr) (hnc : ∀ x ∈ p, x ≠ ':')
    (hok : schemeOKb p = true) :
    splitScheme (p ++ ':' :: r) = (pyLower p, r) := by
  unfold splitScheme
  rw [splitOnce_append ':' p r hnc]
  simp [hok]

theorem splitScheme_head_notalpha (c : Char) (t : PyStr) (h : isAlphaAscii c = false) :
    splitScheme (c :: t) = ([], c :: t) := by
  cases hsp : splitOnceChar ':' (c :: t) with
  | none => simp [splitScheme, hsp]
  | some p =>
    obtain ⟨hdec, hnc⟩ := splitOnce_eq_some ':' (c :: t) p.1 p.2 (by rw [hsp])
    have hfalse : schemeOKb p.1 = false := by
      cases hp : p.1 with
      | nil => rfl
      | cons c0 t0 =>
        have hc0 : c0 = c := by
          rw [hp, List.cons_append] at hdec
          exact (List.cons.injEq .. ▸ hdec).1.symm
        rw [hc0]
        exact schemeOKb_head_false c t0 h
    simp [splitScheme, hsp, hfalse]

theorem splitScheme_blocked (s : PyStr)
    (h : ∀ p r, s = p ++ ':' :: r → (∀ x ∈ p, x ≠ ':') → schemeOKb p = false) :
    splitScheme s = ([], s) := by
  cases hsp : splitOnceChar ':' s with
  | none => simp [splitScheme, hsp]
  | some p =>
    obtain ⟨hdec, hnc⟩ := splitOnce_eq_some ':' s p.1 p.2 (by rw [hsp])
    simp [splitScheme, hsp, h p.1 p.2 hdec hnc]

theorem splitScheme_eq_self_blocked (s p X : PyStr) (hdec : s = p ++ ':' :: X)
    (hnc : ∀ x ∈ p, x ≠ ':') (hself : splitScheme s = ([], s)) :
    schemeOKb p = false := by
  by_cases hok : schemeOKb p = true
  · rw [hdec, splitScheme_pos p X hnc hok] at hself
    have h2 : X = p ++ ':' :: X := (Prod.mk.injEq .. ▸ hself).2
    have : X.length = (p ++ ':' :: X).length := by rw [← h2]
    simp only [List.length_append, List.length_cons] at this
    omega
  · exact Bool.eq_false_iff.mpr hok

theorem spanNot_decomp (pr : Char → Bool) (s : PyStr) :
    (spanNot pr s).1 ++ (spanNot pr s).2 = s ∧
      (∀ c ∈ (spanNot pr s).1, pr c = false) ∧
      ((spanNot pr s).2 = [] ∨ ∃ c t, (spanNot pr s).2 = c :: t ∧ pr c = true) := by
  induction s with
  | nil => exact ⟨rfl, by simp [spanNot], Or.inl rfl⟩
  | cons a rest ih =>
    by_cases ha : pr a = true
    · simp only [spanNot, if_pos ha]
      exact ⟨rfl, by simp, Or.inr ⟨a, rest, rfl, ha⟩⟩
    · have ha' : pr a = false := Bool.eq_false_iff.mpr ha
      simp only [spanNot, if_neg ha]
      obtain ⟨h1, h2, h3⟩ := ih
      refine ⟨by simp [h1], ?_, h3⟩
      intro c hc
      rcases List.mem_cons.mp hc with rfl | hc
      · exact ha'
      · exact h2 c hc

theorem spanNot_append (pr : Char → Bool) (a t : PyStr)
    (ha : ∀ x ∈ a, pr x = false)
    (ht : t = [] ∨ ∃ c t2, t = c :: t2 ∧ pr c = true) :
    spanNot pr (a ++ t) = (a, t) := by
  induction a with
  | nil =>
    rcases ht with rfl | ⟨c, t2, rfl, hc⟩
    · rfl
    · simp [spanNot, hc]
  | cons x rest ih =>
    have hx : pr x = false := ha x (by simp)
    simp only [List.cons_append, spanNot, if_neg (by rw [hx]; simp : ¬ pr x = true),
      List.append_eq]
    rw [ih fun y hy => ha y (by simp [hy])]

/-! ### Character and sanitization facts for the request-line round trip -/

theorem isSchemeChar_bounds (c : Char) (h : isSchemeChar c = true) :
    43 ≤ c.toNat ∧ c.toNat ≤ 122 := by
  rcases (isSchemeChar_iff c).mp h with h | h | h | h | h | h <;> omega

theorem isTabCrLf_false_of_gt (c : Char) (h : 32 < c.toNat) : isTabCrLf c = false := by
  have h1 : c ≠ '\t' := fun he => by rw [he] at h; exact absurd h (by decide)
  have h2 : c ≠ '\r' := fun he => by rw [he] at h; exact absurd h (by decide)
  have h3 : c ≠ '\n' := fun he => by rw [he] at h; exact absurd h (by decide)
  simp [isTabCrLf, h1, h2, h3]

theorem dropWhile_head_false (p : Char → Bool) (l : PyStr) (c : Char) (t : PyStr)
    (h : l.dropWhile p = c :: t) : p c = false := by
  induction l with
  | nil => simp [List.dropWhile] at h
  | cons a rest ih =>
    rw [List.dropWhile_cons] at h
    by_cases hp : p a = true
    · rw [if_pos hp] at h; exact ih h
    · rw [if_neg hp] at h
      injection h with h1 h2
      rw [← h1]
      exact Bool.eq_false_iff.mpr hp

theorem dropWhile_subset (p : Char → Bool) (l : PyStr) : ∀ c ∈ l.dropWhile p, c ∈ l := by
  induction l with
  | nil => intro c hc; simp at hc
  | cons a rest ih =>
    intro c hc
    rw [List.dropWhile_cons] at hc
    by_cases hp : p a = true
    · rw [if_pos hp] at hc; exact List.mem_cons_of_mem a (ih c hc)
    · rw [if_neg hp] at hc; exact hc

theorem urlClean_head (u : PyStr) (c : Char) (t : PyStr) (h : urlClean u = c :: t) :
    32 < c.toNat := by
  unfold urlClean at h
  cases hd : u.dropWhile isC0OrSpace with
  | nil => rw [hd] at h; simp at h
  | cons a t2 =>
    have ha : isC0OrSpace a = false := dropWhile_head_false isC0OrSpace u a t2 hd
    have ha2 : 32 < a.toNat := by
      unfold isC0OrSpace at ha
      have := of_decide_eq_false ha
      omega
    rw [hd] at h
    have hkeep : (fun c => !isTabCrLf c) a = true := by
      simp [isTabCrLf_false_of_gt a ha2]
    rw [List.filter_cons, if_pos hkeep] at h
    injection h with h1 h2
    rw [← h1]
    exact ha2

theorem urlClean_noTab (u : PyStr) : ∀ c ∈ urlClean u, isTabCrLf c = false := by
  intro c hc
  unfold urlClean at hc
  have := (List.mem_filter.mp hc).2
  simpa using this

theorem urlClean_subset (u : PyStr) : ∀ c ∈ urlClean u, c ∈ u := by
  intro c hc
  unfold urlClean at hc
  exact dropWhile_subset isC0OrSpace u c (List.mem_filter.mp hc).1

theorem urlClean_eq_self (w : PyStr)
    (hhead : ∀ c t, w = c :: t → 32 < c.toNat)
    (hno : ∀ c ∈ w, isTabCrLf c = false) : urlClean w = w := by
  cases w with
  | nil => rfl
  | cons c t =>
    unfold urlClean
    have hc : 32 < c.toNat := hhead c t rfl
    have hC0 : isC0OrSpace c = false := by
      unfold isC0OrSpace
      exact decide_eq_false (by omega)
    rw [List.dropWhile_cons, if_neg (by rw [hC0]; exact Bool.false_ne_true)]
    exact List.filter_eq_self.mpr fun a ha => by simp [hno a ha]

theorem pyIntercalate_mem (sep : PyStr) (ps : List PyStr) (x : Char)
    (hx : x ∈ pyIntercalate sep ps) : x ∈ sep ∨ ∃ p ∈ ps, x ∈ p := by
  induction ps with
  | nil => simp [pyIntercalate] at hx
  | cons s rest ih =>
    cases rest with
    | nil =>
      right
      exact ⟨s, by simp, by simpa [pyIntercalate] using hx⟩
    | cons r rs =>
      rw [show pyIntercalate sep (s :: r :: rs) = s ++ sep ++ pyIntercalate sep (r :: rs)
        from rfl] at hx
      rcases List.mem_append.mp hx with hx1 | hx2
      · rcases List.mem_append.mp hx1 with hs | hsep
        · exact Or.inr ⟨s, by simp, hs⟩
        · exact Or.inl hsep
      · rcases ih hx2 with h | ⟨p, hp, hxp⟩
        · exact Or.inl h
        · exact Or.inr ⟨p, List.mem_cons_of_mem s hp, hxp⟩

theorem urlencode_chars (d : QueryDict) (x : Char) (hx : x ∈ urlencodeDoseq d) :
    32 < x.toNat ∧ x ≠ '#' := by
  unfold urlencodeDoseq at hx
  rcases pyIntercalate_mem ['&'] _ x hx with hsep | ⟨p, hp, hxp⟩
  · simp at hsep
    subst hsep
    exact ⟨by decide, by decide⟩
  · rw [List.mem_flatten] at hp
    obtain ⟨l, hl, hpl⟩ := hp
    rw [List.mem_map] at hl
    obtain ⟨kv, hkv, rfl⟩ := hl
    rw [List.mem_map] at hpl
    obtain ⟨v, hv, rfl⟩ := hpl
    have hq : ∀ y : Char, (alwaysSafe y = true ∨ y = '+' ∨ y = '%') →
        32 < y.toNat ∧ y ≠ '#' := by
      intro y hy
      rcases hy with hy | rfl | rfl
      · refine ⟨by have := alwaysSafe_toNat_ge y hy; omega, ?_⟩
        exact alwaysSafe_ne y '#' hy (by decide)
      · exact ⟨by decide, by decide⟩
      · exact ⟨by decide, by decide⟩
    rcases List.mem_append.mp hxp with h | h
    · exact hq x (quotePlus_mem _ x h)
    · rcases List.mem_cons.mp h with rfl | h
      · exact ⟨by decide, by decide⟩
      · exact hq x (quotePlus_mem _ x h)

/-! ### Membership lemmas for the `urlunsplit` combinators -/

theorem slashPath_mem (P : PyStr) (c : Char) (hc : c ∈ slashPath P) : c = '/' ∨ c ∈ P := by
  cases P with
  | nil => simp [slashPath] at hc
  | cons a t =>
    simp only [slashPath] at hc
    by_cases ha : a = '/'
    · rw [if_pos ha] at hc; exact Or.inr hc
    · rw [if_neg ha] at hc
      rcases List.mem_cons.mp hc with rfl | hc
      · exact Or.inl rfl
      · exact Or.inr hc

theorem withScheme_mem (sch U : PyStr) (c : Char) (hc : c ∈ withScheme sch U) :
    c ∈ sch ∨ c = ':' ∨ c ∈ U := by
  unfold withScheme at hc
  by_cases h : sch ≠ []
  · rw [if_pos h] at hc
    rcases List.mem_append.mp hc with h1 | h1
    · exact Or.inl h1
    · rcases List.mem_cons.mp h1 with rfl | h1
      · exact Or.inr (Or.inl rfl)
      · exact Or.inr (Or.inr h1)
  · rw [if_neg h] at hc; exact Or.inr (Or.inr hc)

theorem withQuery_mem (U q : PyStr) (c : Char) (hc : c ∈ withQuery U q) :
    c ∈ U ∨ c = '?' ∨ c ∈ q := by
  unfold withQuery at hc
  by_cases h : q ≠ []
  · rw [if_pos h] at hc
    rcases List.mem_append.mp hc with h1 | h1
    · exact Or.inl h1
    · rcases List.mem_cons.mp h1 with rfl | h1
      · exact Or.inr (Or.inl rfl)
      · exact Or.inr (Or.inr h1)
  · rw [if_neg h] at hc; exact Or.inl hc

theorem withFrag_mem (U f : PyStr) (c : Char) (hc : c ∈ withFrag U f) :
    c ∈ U ∨ c = '#' ∨ c ∈ f := by
  unfold withFrag at hc
  by_cases h : f ≠ []
  · rw [if_pos h] at hc
    rcases List.mem_append.mp hc with h1 | h1
    · exact Or.inl h1
    · rcases List.mem_cons.mp h1 with rfl | h1
      · exact Or.inr (Or.inl rfl)
      · exact Or.inr (Or.inr h1)
  · rw [if_neg h] at hc; exact Or.inl hc

theorem netlocPart_mem (sch n P : PyStr) (c : Char) (hc : c ∈ netlocPart sch n P) :
    c = '/' ∨ c ∈ n ∨ c ∈ P := by
  unfold netlocPart at hc
  by_cases h : (n ≠ [] ∨ (sch ≠ [] ∧ usesNetloc.contains sch ∧ P.take 2 ≠ ['/', '/']))
  · rw [if_pos h] at hc
    rcases List.mem_append.mp hc with h1 | h1
    · rcases List.mem_append.mp h1 with h2 | h2
      · simp at h2
        exact Or.inl h2
      · exact Or.inr (Or.inl h2)
    · rcases slashPath_mem P c h1 with h3 | h3
      · exact Or.inl h3
      · exact Or.inr (Or.inr h3)
  · rw [if_neg h] at hc; exact Or.inr (Or.inr hc)

theorem urlunsplit_mem (sch n P q f : PyStr) (c : Char) (hc : c ∈ urlunsplit sch n P q f) :
    c ∈ sch ∨ c ∈ n ∨ c ∈ P ∨ c ∈ q ∨ c ∈ f ∨ (c = ':' ∨ c = '/' ∨ c = '?' ∨ c = '#') := by
  unfold urlunsplit at hc
  rcases withFrag_mem _ _ c hc with h1 | h1 | h1
  · rcases withQuery_mem _ _ c h1 with h2 | h2 | h2
    · rcases withScheme_mem _ _ c h2 with h3 | h3 | h3
      · exact Or.inl h3
      · exact Or.inr (Or.inr (Or.inr (Or.inr (Or.inr (Or.inl h3)))))
      · rcases netlocPart_mem _ _ _ c h3 with h4 | h4 | h4
        · exact Or.inr (Or.inr (Or.inr (Or.inr (Or.inr (Or.inr (Or.inl h4))))))
        · exact Or.inr (Or.inl h4)
        · exact Or.inr (Or.inr (Or.inl h4))
    · exact Or.inr (Or.inr (Or.inr (Or.inr (Or.inr (Or.inr (Or.inr (Or.inl h2)))))))
    · exact Or.inr (Or.inr (Or.inr (Or.inl h2)))
  · exact Or.inr (Or.inr (Or.inr (Or.inr (Or.inr (Or.inr (Or.inr (Or.inr h1)))))))
  · exact Or.inr (Or.inr (Or.inr (Or.inr (Or.inl h1))))

theorem withQF_eq (X q f : PyStr) :
    withFrag (withQuery X q) f =
      X ++ ((if q ≠ [] then '?' :: q else []) ++ (if f ≠ [] then '#' :: f else [])) := by
  unfold withFrag withQuery
  by_cases hq : q ≠ [] <;> by_cases hf : f ≠ [] <;>
    simp [hq, hf, List.append_assoc]

/-! ### The split primitives of `urlsplit`, forwards and backwards -/

theorem splitFrag_append (a b : PyStr) (ha : ∀ c ∈ a, c ≠ '#') :
    splitFrag (a ++ '#' :: b) = (a, b) := by
  unfold splitFrag
  rw [splitOnce_append '#' a b ha]

theorem splitFrag_none (a : PyStr) (ha : ∀ c ∈ a, c ≠ '#') : splitFrag a = (a, []) := by
  unfold splitFrag
  rw [splitOnce_of_noChar '#' a ha]

theorem splitQuery_append (a b : PyStr) (ha : ∀ c ∈ a, c ≠ '?') :
    splitQuery (a ++ '?' :: b) = (a, b) := by
  unfold splitQuery
  rw [splitOnce_append '?' a b ha]

theorem splitQuery_none (a : PyStr) (ha : ∀ c ∈ a, c ≠ '?') : splitQuery a = (a, []) := by
  unfold splitQuery
  rw [splitOnce_of_noChar '?' a ha]

theorem splitFrag_inv (x a b : PyStr) (h : splitFrag x = (a, b)) :
    x = a ++ '#' :: b ∧ (∀ c ∈ a, c ≠ '#') ∨ a = x ∧ b = [] ∧ (∀ c ∈ x, c ≠ '#') := by
  cases hsp : splitOnceChar '#' x with
  | none =>
    have h2 : (x, ([] : PyStr)) = (a, b) := by
      unfold splitFrag at h; rw [hsp] at h; exact h
    right
    exact ⟨((Prod.mk.injEq .. ▸ h2).1).symm, ((Prod.mk.injEq .. ▸ h2).2).symm,
      splitOnce_none '#' x hsp⟩
  | some pq =>
    have h2 : pq = (a, b) := by
      unfold splitFrag at h; rw [hsp] at h; exact h
    subst h2
    obtain ⟨hdec, hnc⟩ := splitOnce_eq_some '#' x a b (by rw [hsp])
    exact Or.inl ⟨hdec, hnc⟩

theorem splitQuery_inv (x a b : PyStr) (h : splitQuery x = (a, b)) :
    x = a ++ '?' :: b ∧ (∀ c ∈ a, c ≠ '?') ∨ a = x ∧ b = [] ∧ (∀ c ∈ x, c ≠ '?') := by
  cases hsp : splitOnceChar '?' x with
  | none =>
    have h2 : (x, ([] : PyStr)) = (a, b) := by
      unfold splitQuery at h; rw [hsp] at h; exact h
    right
    exact ⟨((Prod.mk.injEq .. ▸ h2).1).symm, ((Prod.mk.injEq .. ▸ h2).2).symm,
      splitOnce_none '?' x hsp⟩
  | some pq =>
    have h2 : pq = (a, b) := by
      unfold splitQuery at h; rw [hsp] at h; exact h
    subst h2
    obtain ⟨hdec, hnc⟩ := splitOnce_eq_some '?' x a b (by rw [hsp])
    exact Or.inl ⟨hdec, hnc⟩

theorem splitNetloc_pair (n r : PyStr) (hn : ∀ c ∈ n, netlocDelim c = false)
    (hr : r = [] ∨ ∃ c t, r = c :: t ∧ netlocDelim c = true) :
    splitNetloc ('/' :: '/' :: (n ++ r)) = (n, r) := by
  show (if ('/' : Char) = '/' ∧ ('/' : Char) = '/' then spanNot netlocDelim (n ++ r)
    else ([], '/' :: '/' :: (n ++ r))) = (n, r)
  rw [if_pos ⟨rfl, rfl⟩]
  exact spanNot_append netlocDelim n r hn hr

theorem splitNetloc_default (R : PyStr) (h : R.take 2 ≠ ['/', '/']) :
    splitNetloc R = ([], R) := by
  cases R with
  | nil => rfl
  | cons a R1 =>
    cases R1 with
    | nil => rfl
    | cons b t =>
      show (if a = '/' ∧ b = '/' then spanNot netlocDelim t else ([], a :: b :: t)) =
        ([], a :: b :: t)
      rw [if_neg fun hab => h (by rw [hab.1, hab.2]; rfl)]

theorem splitNetloc_inv (R n rest : PyStr) (h : splitNetloc R = (n, rest)) :
    (n = [] ∧ rest = R) ∨
      ∃ r3, R = '/' :: '/' :: r3 ∧ n ++ rest = r3 ∧ (∀ c ∈ n, netlocDelim c = false) ∧
        (rest = [] ∨ ∃ c t, rest = c :: t ∧ netlocDelim c = true) := by
  cases R with
  | nil => exact Or.inl ⟨((Prod.mk.injEq .. ▸ h).1).symm, ((Prod.mk.injEq .. ▸ h).2).symm⟩
  | cons a R1 =>
    cases R1 with
    | nil => exact Or.inl ⟨((Prod.mk.injEq .. ▸ h).1).symm, ((Prod.mk.injEq .. ▸ h).2).symm⟩
    | cons b t =>
      rw [show splitNetloc (a :: b :: t) =
          if a = '/' ∧ b = '/' then spanNot netlocDelim t else ([], a :: b :: t) from rfl] at h
      by_cases hab : a = '/' ∧ b = '/'
      · rw [if_pos hab] at h
        right
        obtain ⟨h1, h2, h3⟩ := spanNot_decomp netlocDelim t
        rw [h] at h1 h2 h3
        exact ⟨t, by rw [hab.1, hab.2], h1, h2, h3⟩
      · rw [if_neg hab] at h
        exact Or.inl ⟨((Prod.mk.injEq .. ▸ h).1).symm, ((Prod.mk.injEq .. ▸ h).2).symm⟩

theorem splitScheme_cases (v : PyStr) :
    splitScheme v = ([], v) ∨
      ∃ p r, v = p ++ ':' :: r ∧ (∀ x ∈ p, x ≠ ':') ∧ schemeOKb p = true ∧
        splitScheme v = (pyLower p, r) := by
  cases hsp : splitOnceChar ':' v with
  | none => exact Or.inl (by simp [splitScheme, hsp])
  | some pr =>
    obtain ⟨hdec, hnc⟩ := splitOnce_eq_some ':' v pr.1 pr.2 (by rw [hsp])
    by_cases hok : schemeOKb pr.1 = true
    · exact Or.inr ⟨pr.1, pr.2, hdec, hnc, hok, by simp [splitScheme, hsp, hok]⟩
    · exact Or.inl (by simp [splitScheme, hsp, hok])

theorem colon_split_of_append (ch : Char) (A B x y : PyStr)
    (h : A ++ B = x ++ ch :: y) (hA : ∀ c ∈ A, c ≠ ch) :
    ∃ x2, x = A ++ x2 ∧ B = x2 ++ ch :: y := by
  induction A generalizing x with
  | nil => exact ⟨x, rfl, by simpa using h⟩
  | cons a A2 ih =>
    cases x with
    | nil =>
      simp only [List.cons_append, List.nil_append] at h
      injection h with h1 h2
      exact absurd h1 (hA a (by simp))
    | cons x0 x2 =>
      simp only [List.cons_append] at h
      injection h with h1 h2
      obtain ⟨x3, hx3, hB⟩ := ih x2 h2 (fun c hc => hA c (List.mem_cons_of_mem a hc))
      exact ⟨x3, by rw [h1, hx3]; rfl, hB⟩

theorem colon_prefix_unique (ch : Char) (a1 b1 a2 b2 : PyStr)
    (h : a1 ++ ch :: b1 = a2 ++ ch :: b2) (h1 : ∀ c ∈ a1, c ≠ ch)
    (h2 : ∀ c ∈ a2, c ≠ ch) : a1 = a2 ∧ b1 = b2 := by
  induction a1 generalizing a2 with
  | nil =>
    cases a2 with
    | nil => simpa using h
    | cons a a3 =>
      simp only [List.nil_append, List.cons_append] at h
      injection h with he _
      exact absurd he.symm (h2 a (by simp))
  | cons a a3 ih =>
    cases a2 with
    | nil =>
      simp only [List.nil_append, List.cons_append] at h
      injection h with he _
      exact absurd he (h1 a (by simp))
    | cons c c3 =>
      simp only [List.cons_append] at h
      injection h with he hrest
      obtain ⟨hx, hy⟩ := ih c3 hrest (fun d hd => h1 d (List.mem_cons_of_mem a hd))
        (fun d hd => h2 d (List.mem_cons_of_mem c hd))
      exact ⟨by rw [he, hx], hy⟩

/-! ### Inverting `urlsplit` -/

theorem urlsplitM_eq (u : PyStr) :
    urlsplitM u =
      if (((splitNetloc (splitScheme (urlClean u)).2).1.contains '[').xor
          ((splitNetloc (splitScheme (urlClean u)).2).1.contains ']')) then none
      else
        some ⟨(splitScheme (urlClean u)).1,
          (splitNetloc (splitScheme (urlClean u)).2).1,
          (splitQuery (splitFrag (splitNetloc (splitScheme (urlClean u)).2).2).1).1,
          (splitQuery (splitFrag (splitNetloc (splitScheme (urlClean u)).2).2).1).2,
          (splitFrag (splitNetloc (splitScheme (urlClean u)).2).2).2⟩ := rfl

theorem urlsplitM_some_inv (u : PyStr) (s : SplitResult) (h : urlsplitM u = some s) :
    ∃ rest1 t1 t2,
      splitScheme (urlClean u) = (s.scheme, rest1) ∧
      splitNetloc rest1 = (s.netloc, s.path ++ t1 ++ t2) ∧
      (t2 = [] ∧ s.fragment = [] ∨ t2 = '#' :: s.fragment) ∧
      (t1 = [] ∧ s.query = [] ∨ t1 = '?' :: s.query) ∧
      (∀ c ∈ s.path, c ≠ '?') ∧ (∀ c ∈ s.path ++ t1, c ≠ '#') ∧
      ((s.netloc.contains '[').xor (s.netloc.contains ']')) = false := by
  rcases hSU : splitScheme (urlClean u) with ⟨sch, rest1⟩
  rcases hN : splitNetloc rest1 with ⟨n, rest2⟩
  rcases hF : splitFrag rest2 with ⟨fa, fb⟩
  rcases hQ : splitQuery fa with ⟨qa, qb⟩
  have hcomp : urlsplitM u =
      if (n.contains '[').xor (n.contains ']') then none
      else some ⟨sch, n, qa, qb, fb⟩ := by
    rw [urlsplitM_eq]
    simp only [hSU, hN, hF, hQ]
  rw [hcomp] at h
  by_cases hbr : ((n.contains '[').xor (n.contains ']')) = true
  · rw [if_pos hbr] at h
    exact absurd h (by simp)
  · rw [if_neg hbr] at h
    injection h with h2
    subst h2
    rcases splitFrag_inv rest2 fa fb hF with ⟨hfdec, hffree⟩ | ⟨hfa, hfb, hffree⟩
    · rcases splitQuery_inv fa qa qb hQ with ⟨hqdec, hqfree⟩ | ⟨hqa, hqb, hqfree⟩
      · refine ⟨rest1, '?' :: qb, '#' :: fb, rfl, ?_, Or.inr rfl, Or.inr rfl, hqfree, ?_,
          Bool.eq_false_iff.mpr hbr⟩
        · rw [hN, hfdec, hqdec]
        · intro c hc
          apply hffree
          rw [hqdec]
          exact hc
      · refine ⟨rest1, [], '#' :: fb, rfl, ?_, Or.inr rfl, Or.inl ⟨rfl, hqb⟩, ?_, ?_,
          Bool.eq_false_iff.mpr hbr⟩
        · rw [hN, hfdec, hqa]
          simp
        · exact fun c hc => hqfree c (hqa ▸ hc)
        · intro c hc
          apply hffree
          rw [← hqa]
          simpa using hc
    · rcases splitQuery_inv fa qa qb hQ with ⟨hqdec, hqfree⟩ | ⟨hqa, hqb, hqfree⟩
      · refine ⟨rest1, '?' :: qb, [], rfl, ?_, Or.inl ⟨rfl, hfb⟩, Or.inr rfl, hqfree, ?_,
          Bool.eq_false_iff.mpr hbr⟩
        · rw [hN, ← hfa, hqdec]
          simp
        · intro c hc
          apply hffree
          rw [← hfa, hqdec]
          exact hc
      · refine ⟨rest1, [], [], rfl, ?_, Or.inl ⟨rfl, hfb⟩, Or.inl ⟨rfl, hqb⟩, ?_, ?_,
          Bool.eq_false_iff.mpr hbr⟩
        · rw [hN, hqa, hfa]
          simp
        · exact fun c hc => hqfree c (hqa ▸ hc)
        · intro c hc
          apply hffree
          rw [← hfa, ← hqa]
          simpa using hc

/-! ### `splitLastChar` forwards and the `splitparams` algebra -/

theorem joinParams_nil (p : PyStr) : joinParams p [] = p := by simp [joinParams]

theorem joinParams_ne (p m : PyStr) (hm : m ≠ []) : joinParams p m = p ++ ';' :: m := by
  simp [joinParams, hm]

theorem splitparams_join_ne (x : PyStr) (h : (splitparams x).2 ≠ []) :
    (splitparams x).1 ++ ';' :: (splitparams x).2 = x := by
  cases hsl : splitLastChar '/' x with
  | some ab =>
    cases hso : splitOnceChar ';' ab.2 with
    | some b =>
      have hx : splitparams x = (ab.1 ++ '/' :: b.1, b.2) := by
        simp only [splitparams, hsl, hso]
      obtain ⟨hdec1, -⟩ := splitLast_eq_some '/' x ab.1 ab.2 (by rw [hsl])
      obtain ⟨hdec2, -⟩ := splitOnce_eq_some ';' ab.2 b.1 b.2 (by rw [hso])
      rw [hx]
      show (ab.1 ++ '/' :: b.1) ++ ';' :: b.2 = x
      rw [hdec1, hdec2]
      simp
    | none =>
      have hx : splitparams x = (x, []) := by simp only [splitparams, hsl, hso]
      rw [hx] at h
      exact absurd rfl h
  | none =>
    cases hso : splitOnceChar ';' x with
    | some pq =>
      have hx : splitparams x = pq := by simp only [splitparams, hsl, hso]
      obtain ⟨hdec, -⟩ := splitOnce_eq_some ';' x pq.1 pq.2 (by rw [hso])
      rw [hx]
      exact hdec.symm
    | none =>
      have hx : splitparams x = (x, []) := by simp only [splitparams, hsl, hso]
      rw [hx] at h
      exact absurd rfl h

theorem splitparams_empty_idem (x : PyStr) :
    splitparams (splitparams x).1 = ((splitparams x).1, []) ∨
      splitparams (splitparams x).1 = splitparams x := by
  cases hsl : splitLastChar '/' x with
  | some ab =>
    cases hso : splitOnceChar ';' ab.2 with
    | some b =>
      have hx : splitparams x = (ab.1 ++ '/' :: b.1, b.2) := by
        simp only [splitparams, hsl, hso]
      obtain ⟨hdec1, hnos⟩ := splitLast_eq_some '/' x ab.1 ab.2 (by rw [hsl])
      obtain ⟨hdec2, hnosemi⟩ := splitOnce_eq_some ';' ab.2 b.1 b.2 (by rw [hso])
      left
      rw [hx]
      show splitparams (ab.1 ++ '/' :: b.1) = (ab.1 ++ '/' :: b.1, [])
      have hb1slash : ∀ c ∈ b.1, c ≠ '/' := fun c hc =>
        hnos c (by rw [hdec2]; exact List.mem_append.mpr (Or.inl hc))
      have hsl2 : splitLastChar '/' (ab.1 ++ '/' :: b.1) = some (ab.1, b.1) :=
        splitLast_append '/' ab.1 b.1 hb1slash
      have hso2 : splitOnceChar ';' b.1 = none := splitOnce_of_noChar ';' b.1 hnosemi
      simp only [splitparams, hsl2, hso2]
    | none =>
      have hx : splitparams x = (x, []) := by simp only [splitparams, hsl, hso]
      right
      rw [hx]
      show splitparams x = (x, [])
      exact hx
  | none =>
    cases hso : splitOnceChar ';' x with
    | some pq =>
      have hx : splitparams x = pq := by simp only [splitparams, hsl, hso]
      obtain ⟨hdec, hnosemi⟩ := splitOnce_eq_some ';' x pq.1 pq.2 (by rw [hso])
      have hnoslash : ∀ c ∈ x, c ≠ '/' := splitLast_none '/' x hsl
      left
      rw [hx]
      have h1 : ∀ c ∈ pq.1, c ≠ '/' := fun c hc =>
        hnoslash c (by rw [hdec]; exact List.mem_append.mpr (Or.inl hc))
      have hsl2 : splitLastChar '/' pq.1 = none := splitLast_of_noChar '/' pq.1 h1
      have hso2 : splitOnceChar ';' pq.1 = none := splitOnce_of_noChar ';' pq.1 hnosemi
      simp only [splitparams, hsl2, hso2]
    | none =>
      have hx : splitparams x = (x, []) := by simp only [splitparams, hsl, hso]
      right
      rw [hx]
      show splitparams x = (x, [])
      exact hx

theorem splitparams_fst_prefix (x : PyStr) : ∃ t, x = (splitparams x).1 ++ t := by
  cases hsl : splitLastChar '/' x with
  | some ab =>
    cases hso : splitOnceChar ';' ab.2 with
    | some b =>
      have hx : splitparams x = (ab.1 ++ '/' :: b.1, b.2) := by
        simp only [splitparams, hsl, hso]
      obtain ⟨hdec1, -⟩ := splitLast_eq_some '/' x ab.1 ab.2 (by rw [hsl])
      obtain ⟨hdec2, -⟩ := splitOnce_eq_some ';' ab.2 b.1 b.2 (by rw [hso])
      refine ⟨';' :: b.2, ?_⟩
      rw [hx]
      show x = (ab.1 ++ '/' :: b.1) ++ ';' :: b.2
      rw [hdec1, hdec2]
      simp
    | none =>
      have hx : splitparams x = (x, []) := by simp only [splitparams, hsl, hso]
      exact ⟨[], by rw [hx]; simp⟩
  | none =>
    cases hso : splitOnceChar ';' x with
    | some pq =>
      have hx : splitparams x = pq := by simp only [splitparams, hsl, hso]
      obtain ⟨hdec, -⟩ := splitOnce_eq_some ';' x pq.1 pq.2 (by rw [hso])
      exact ⟨';' :: pq.2, by rw [hx]; exact hdec⟩
    | none =>
      have hx : splitparams x = (x, []) := by simp only [splitparams, hsl, hso]
      exact ⟨[], by rw [hx]; simp⟩

theorem splitparams_prefix (x : PyStr) :
    ∃ t, x = joinParams (splitparams x).1 (splitparams x).2 ++ t := by
  by_cases h : (splitparams x).2 = []
  · rw [h, joinParams_nil]
    exact splitparams_fst_prefix x
  · refine ⟨[], ?_⟩
    rw [joinParams_ne _ _ h, List.append_nil]
    exact (splitparams_join_ne x h).symm

/-! ### Miscellaneous shape lemmas -/

theorem schemeOKb_head_bound (p : PyStr) (h : schemeOKb p = true) (c : Char) (t : PyStr)
    (hp : p = c :: t) : 64 < c.toNat ∧ c.toNat ≤ 122 := by
  subst hp
  unfold schemeOKb at h
  rw [Bool.and_eq_true] at h
  have h2 := h.1
  unfold isAlphaAscii at h2
  simp only [Bool.or_eq_true, Bool.and_eq_true, decide_eq_true_eq] at h2
  rcases h2 with ⟨h3, h4⟩ | ⟨h3, h4⟩ <;> omega

theorem netlocDelim_or (c : Char) (h : netlocDelim c = true) :
    c = '/' ∨ c = '?' ∨ c = '#' := by
  unfold netlocDelim at h
  simp only [Bool.or_eq_true, decide_eq_true_eq] at h
  tauto

theorem slashPath_eq_self (P : PyStr) (h : P = [] ∨ ∃ t, P = '/' :: t) : slashPath P = P := by
  rcases h with rfl | ⟨t, rfl⟩
  · rfl
  · simp [slashPath]

theorem slashPath_head (c : Char) (t : PyStr) : ∃ t2, slashPath (c :: t) = '/' :: t2 := by
  simp only [slashPath]
  by_cases h : c = '/'
  · rw [if_pos h, h]
    exact ⟨t, rfl⟩
  · rw [if_neg h]
    exact ⟨c :: t, rfl⟩

theorem urlsplitM_facts (u : PyStr) (s : SplitResult) (h : urlsplitM u = some s) :
    (s.scheme = [] ∧ splitScheme (urlClean u) = ([], urlClean u) ∨
      schemeOKb s.scheme = true ∧ pyLower s.scheme = s.scheme) ∧
    (∀ c ∈ s.netloc, netlocDelim c = false) ∧
    ((s.netloc.contains '[').xor (s.netloc.contains ']')) = false ∧
    (∀ c ∈ s.path, c ≠ '#') ∧ (∀ c ∈ s.path, c ≠ '?') ∧
    (∀ c ∈ s.netloc, c ∈ urlClean u) ∧ (∀ c ∈ s.path, c ∈ urlClean u) ∧
    (∀ c ∈ s.fragment, c ∈ urlClean u) ∧
    (s.netloc ≠ [] → s.path = [] ∨ ∃ t, s.path = '/' :: t) ∧
    (s.scheme = [] → s.netloc = [] →
      s.path = [] ∨ (∃ t, s.path = '/' :: t) ∨ ∃ tail, urlClean u = s.path ++ tail) := by
  obtain ⟨rest1, t1, t2, hSU, hN, ht2, ht1, hq, hhash, hbr⟩ := urlsplitM_some_inv u s h
  have hkey : (s.scheme = [] ∧ splitScheme (urlClean u) = ([], urlClean u) ∨
      schemeOKb s.scheme = true ∧ pyLower s.scheme = s.scheme) ∧
      (∀ c ∈ rest1, c ∈ urlClean u) := by
    rcases splitScheme_cases (urlClean u) with hleft | ⟨p, r, hvdec, hpnc, hpok, heq⟩
    · rw [hSU] at hleft
      have hsch : s.scheme = [] := (Prod.mk.injEq .. ▸ hleft).1
      have hrest1 : rest1 = urlClean u := (Prod.mk.injEq .. ▸ hleft).2
      refine ⟨Or.inl ⟨hsch, by rw [hSU, hsch, hrest1]⟩, ?_⟩
      intro c hc
      rw [← hrest1]
      exact hc
    · rw [hSU] at heq
      have hsch : s.scheme = pyLower p := (Prod.mk.injEq .. ▸ heq).1
      have hrest1 : rest1 = r := (Prod.mk.injEq .. ▸ heq).2
      refine ⟨Or.inr ⟨?_, ?_⟩, ?_⟩
      · rw [hsch]; exact schemeOKb_lower p hpok
      · rw [hsch]; exact pyLower_idem p
      · intro c hc
        rw [hvdec]
        exact List.mem_append.mpr (Or.inr (List.mem_cons_of_mem ':' (hrest1 ▸ hc)))
  obtain ⟨hschemeFacts, hr1v⟩ := hkey
  have hmain : (∀ c ∈ s.netloc, netlocDelim c = false) ∧
      (∀ c ∈ s.netloc, c ∈ urlClean u) ∧ (∀ c ∈ s.path ++ t1 ++ t2, c ∈ urlClean u) ∧
      (s.netloc ≠ [] → s.path = [] ∨ ∃ t, s.path = '/' :: t) ∧
      (s.scheme = [] → s.netloc = [] →
        s.path = [] ∨ (∃ t, s.path = '/' :: t) ∨ ∃ tail, urlClean u = s.path ++ tail) := by
    rcases splitNetloc_inv rest1 s.netloc (s.path ++ t1 ++ t2) hN with
      ⟨hn0, hrest⟩ | ⟨r3, hr1, hr3, hnfree, hrestshape⟩
    · refine ⟨?_, ?_, ?_, ?_, ?_⟩
      · intro c hc; rw [hn0] at hc; simp at hc
      · intro c hc; rw [hn0] at hc; simp at hc
      · intro c hc
        rw [hrest] at hc
        exact hr1v c hc
      · intro hne; exact absurd hn0 hne
      · intro hs _
        have hsplit : splitScheme (urlClean u) = ([], urlClean u) := by
          rcases hschemeFacts with ⟨-, h2⟩ | ⟨hOK, -⟩
          · exact h2
          · rw [hs] at hOK
            exact absurd hOK (by decide)
        have hrv : rest1 = urlClean u := by
          rw [hSU] at hsplit
          exact (Prod.mk.injEq .. ▸ hsplit).2
        refine Or.inr (Or.inr ⟨t1 ++ t2, ?_⟩)
        rw [← List.append_assoc, hrest, hrv]
    · have hpathshape : s.path = [] ∨ ∃ t, s.path = '/' :: t := by
        rcases hrestshape with hnil | ⟨c, t, heq, hdel⟩
        · exact Or.inl (List.append_eq_nil.mp (List.append_eq_nil.mp hnil).1).1
        · cases hp : s.path with
          | nil => exact Or.inl rfl
          | cons p0 pt =>
            rw [hp] at heq
            simp only [List.cons_append] at heq
            injection heq with h1 h2
            subst h1
            rcases netlocDelim_or p0 hdel with hh | hh | hh
            · exact Or.inr ⟨pt, by rw [hh]⟩
            · exact absurd hh (hq p0 (by rw [hp]; simp))
            · exact absurd hh (hhash p0 (by rw [hp]; simp))
      have hmemr3 : ∀ c ∈ r3, c ∈ urlClean u := by
        intro c hc
        apply hr1v
        rw [hr1]
        exact List.mem_cons_of_mem _ (List.mem_cons_of_mem _ hc)
      refine ⟨hnfree, ?_, ?_, fun _ => hpathshape, fun _ _ => ?_⟩
      · intro c hc
        exact hmemr3 c (by rw [← hr3]; exact List.mem_append.mpr (Or.inl hc))
      · intro c hc
        exact hmemr3 c (by rw [← hr3]; exact List.mem_append.mpr (Or.inr hc))
      · rcases hpathshape with hh | hh
        · exact Or.inl hh
        · exact Or.inr (Or.inl hh)
  obtain ⟨hnf, hnv, hrv2, hF7, hF8⟩ := hmain
  refine ⟨hschemeFacts, hnf, hbr, ?_, hq, hnv, ?_, ?_, hF7, hF8⟩
  · exact fun c hc => hhash c (List.mem_append.mpr (Or.inl hc))
  · exact fun c hc => hrv2 c (List.mem_append.mpr (Or.inl (List.mem_append.mpr (Or.inl hc))))
  · intro c hc
    rcases ht2 with ⟨-, hf0⟩ | ht2b
    · rw [hf0] at hc; simp at hc
    · apply hrv2
      refine List.mem_append.mpr (Or.inr ?_)
      rw [ht2b]
      exact List.mem_cons_of_mem _ hc

theorem urlsplit_unsplit (v sch n P q f : PyStr)
    (hschF : sch = [] ∨ schemeOKb sch = true ∧ pyLower sch = sch)
    (hblk : sch = [] → splitScheme v = ([], v))
    (hvhead : ∀ c t, v = c :: t → 32 < c.toNat)
    (hnfree : ∀ c ∈ n, netlocDelim c = false)
    (hbr : ((n.contains '[').xor (n.contains ']')) = false)
    (hP1 : ∀ c ∈ P, c ≠ '#') (hP2 : ∀ c ∈ P, c ≠ '?')
    (hntab : ∀ c ∈ n, isTabCrLf c = false)
    (hPtab : ∀ c ∈ P, isTabCrLf c = false)
    (hftab : ∀ c ∈ f, isTabCrLf c = false)
    (hq : ∀ c ∈ q, 32 < c.toNat ∧ c ≠ '#')
    (htake : n = [] → P.take 2 ≠ ['/', '/'])
    (hslash : (n ≠ [] ∨ (sch ≠ [] ∧ usesNetloc.contains sch ∧ P.take 2 ≠ ['/', '/'])) →
      P = [] ∨ ∃ t, P = '/' :: t)
    (hvP : sch = [] → n = [] → P = [] ∨ (∃ t, P = '/' :: t) ∨ ∃ tail, v = P ++ tail) :
    urlsplitM (urlunsplit sch n P q f) = some ⟨sch, n, P, q, f⟩ := by
  set qf := (if q ≠ [] then '?' :: q else []) ++ (if f ≠ [] then '#' :: f else []) with hqf
  have hw : urlunsplit sch n P q f = withScheme sch (netlocPart sch n P) ++ qf := by
    rw [hqf]
    unfold urlunsplit
    exact withQF_eq _ q f
  have hqf3 : qf = [] ∨ (∃ t3, qf = '?' :: t3) ∨ (∃ t3, qf = '#' :: t3) := by
    rw [hqf]
    by_cases hqe : q ≠ []
    · rw [if_pos hqe]
      exact Or.inr (Or.inl ⟨q ++ (if f ≠ [] then '#' :: f else []), by simp⟩)
    · rw [if_neg hqe]
      by_cases hfe : f ≠ []
      · rw [if_pos hfe]
        exact Or.inr (Or.inr ⟨f, by simp⟩)
      · rw [if_neg hfe]
        exact Or.inl rfl
  have hcore : splitScheme (withScheme sch (netlocPart sch n P) ++ qf) =
      (sch, netlocPart sch n P ++ qf) ∧
      (∀ c t, withScheme sch (netlocPart sch n P) ++ qf = c :: t → 32 < c.toNat) := by
    rcases hschF with hsch0 | ⟨hOK, hlow⟩
    · have hws : withScheme sch (netlocPart sch n P) = netlocPart sch n P := by
        unfold withScheme
        rw [if_neg fun hne => hne hsch0]
      by_cases hcond : (n ≠ [] ∨ (sch ≠ [] ∧ usesNetloc.contains sch ∧ P.take 2 ≠ ['/', '/']))
      · have hBval : netlocPart sch n P = '/' :: '/' :: (n ++ slashPath P) := by
          unfold netlocPart
          rw [if_pos hcond]
          simp
        constructor
        · rw [hws, hBval, hsch0]
          simp only [List.cons_append]
          exact splitScheme_head_notalpha '/' _ (by decide)
        · intro c t hct
          rw [hws, hBval] at hct
          simp only [List.cons_append] at hct
          injection hct with h1 h2
          rw [← h1]
          decide
      · have hBneg : netlocPart sch n P = P := by
          unfold netlocPart
          rw [if_neg hcond]
        have hn0 : n = [] := by
          by_contra hne
          exact hcond (Or.inl hne)
        rcases hvP hsch0 hn0 with hP0 | ⟨t2, hPt⟩ | ⟨tail, hvtail⟩
        · constructor
          · rw [hws, hBneg, hP0, hsch0]
            simp only [List.nil_append]
            rcases hqf3 with h0 | ⟨t3, h3⟩ | ⟨t3, h3⟩
            · rw [h0]
              rfl
            · rw [h3]
              exact splitScheme_head_notalpha '?' _ (by decide)
            · rw [h3]
              exact splitScheme_head_notalpha '#' _ (by decide)
          · intro c t hct
            rw [hws, hBneg, hP0] at hct
            simp only [List.nil_append] at hct
            rcases hqf3 with h0 | ⟨t3, h3⟩ | ⟨t3, h3⟩
            · rw [h0] at hct
              exact absurd hct (by simp)
            · rw [h3] at hct
              injection hct with h1 h2
              rw [← h1]
              decide
            · rw [h3] at hct
              injection hct with h1 h2
              rw [← h1]
              decide
        · constructor
          · rw [hws, hBneg, hPt, hsch0]
            simp only [List.cons_append]
            exact splitScheme_head_notalpha '/' _ (by decide)
          · intro c t hct
            rw [hws, hBneg, hPt] at hct
            simp only [List.cons_append] at hct
            injection hct with h1 h2
            rw [← h1]
            decide
        · constructor
          · rw [hws, hBneg, hsch0]
            apply splitScheme_blocked
            intro p2 r2 hdec hp2free
            cases hcol : splitOnceChar ':' P with
            | some pP =>
              obtain ⟨hPdec, hPfree⟩ := splitOnce_eq_some ':' P pP.1 pP.2 (by rw [hcol])
              have hvdec : v = pP.1 ++ ':' :: (pP.2 ++ tail) := by
                rw [hvtail, hPdec]
                simp
              have hbad : schemeOKb pP.1 = false :=
                splitScheme_eq_self_blocked v pP.1 (pP.2 ++ tail) hvdec hPfree (hblk hsch0)
              have hwdec : p2 ++ ':' :: r2 = pP.1 ++ ':' :: (pP.2 ++ qf) := by
                rw [← hdec, hPdec]
                simp
              obtain ⟨hpp, -⟩ :=
                colon_prefix_unique ':' p2 r2 pP.1 (pP.2 ++ qf) hwdec hp2free hPfree
              rw [hpp]
              exact hbad
            | none =>
              have hPnocolon : ∀ c ∈ P, c ≠ ':' := splitOnce_none ':' P hcol
              obtain ⟨x2, hx2, hqfdec⟩ := colon_split_of_append ':' P qf p2 r2 hdec hPnocolon
              rcases x2 with _ | ⟨d, x3⟩
              · simp only [List.nil_append] at hqfdec
                rcases hqf3 with h0 | ⟨t3, h3⟩ | ⟨t3, h3⟩
                · rw [h0] at hqfdec
                  exact absurd hqfdec (by simp)
                · rw [h3] at hqfdec
                  injection hqfdec with hd2 hd3
                  exact absurd hd2 (by decide)
                · rw [h3] at hqfdec
                  injection hqfdec with hd2 hd3
                  exact absurd hd2 (by decide)
              · have hd : d = '?' ∨ d = '#' := by
                  rcases hqf3 with h0 | ⟨t3, h3⟩ | ⟨t3, h3⟩
                  · rw [h0] at hqfdec
                    exact absurd hqfdec (by simp)
                  · rw [h3] at hqfdec
                    injection hqfdec with hd2 hd3
                    exact Or.inl hd2.symm
                  · rw [h3] at hqfdec
                    injection hqfdec with hd2 hd3
                    exact Or.inr hd2.symm
                have hdmem : d ∈ p2 := by
                  rw [hx2]
                  exact List.mem_append.mpr (Or.inr (by simp))
                rcases hd with rfl | rfl
                · exact schemeOKb_false_of_bad p2 '?' hdmem (by decide)
                · exact schemeOKb_false_of_bad p2 '#' hdmem (by decide)
          · intro c t hct
            rw [hws, hBneg] at hct
            cases hP : P with
            | nil =>
              rw [hP] at hct
              simp only [List.nil_append] at hct
              rcases hqf3 with h0 | ⟨t3, h3⟩ | ⟨t3, h3⟩
              · rw [h0] at hct
                exact absurd hct (by simp)
              · rw [h3] at hct
                injection hct with h1 h2
                rw [← h1]
                decide
              · rw [h3] at hct
                injection hct with h1 h2
                rw [← h1]
                decide
            | cons p0 pt =>
              rw [hP] at hct
              simp only [List.cons_append] at hct
              injection hct with h1 h2
              rw [← h1]
              exact hvhead p0 (pt ++ tail) (by rw [hvtail, hP]; simp)
    · have hne : sch ≠ [] := by
        intro h0
        rw [h0] at hOK
        exact absurd hOK (by decide)
      have hws : withScheme sch (netlocPart sch n P) = sch ++ ':' :: netlocPart sch n P := by
        unfold withScheme
        rw [if_pos hne]
      constructor
      · rw [hws]
        rw [show (sch ++ ':' :: netlocPart sch n P) ++ qf =
            sch ++ ':' :: (netlocPart sch n P ++ qf) by simp]
        rw [splitScheme_pos sch (netlocPart sch n P ++ qf) (schemeOKb_noColon sch hOK) hOK]
        rw [hlow]
      · intro c t hct
        rw [hws] at hct
        cases hsch : sch with
        | nil => exact absurd hsch hne
        | cons s0 st =>
          rw [hsch] at hct
          simp only [List.cons_append] at hct
          injection hct with h1 h2
          have hb := schemeOKb_head_bound sch hOK s0 st hsch
          rw [← h1]
          omega
  obtain ⟨hSch, hHead⟩ := hcore
  have hwtab : ∀ c ∈ urlunsplit sch n P q f, isTabCrLf c = false := by
    intro c hc
    rcases urlunsplit_mem sch n P q f c hc with h | h | h | h | h | h
    · rcases hschF with rfl | ⟨hOK, -⟩
      · simp at h
      · have hb := isSchemeChar_bounds c (schemeOKb_all sch hOK c h)
        exact isTabCrLf_false_of_gt c (by omega)
    · exact hntab c h
    · exact hPtab c h
    · exact isTabCrLf_false_of_gt c (hq c h).1
    · exact hftab c h
    · rcases h with rfl | rfl | rfl | rfl <;> decide
  have hclean : urlClean (urlunsplit sch n P q f) = urlunsplit sch n P q f := by
    refine urlClean_eq_self _ ?_ hwtab
    intro c t hct
    refine hHead c t ?_
    rw [← hw]
    exact hct
  have hNsp : splitNetloc (netlocPart sch n P ++ qf) = (n, P ++ qf) := by
    by_cases hcond : (n ≠ [] ∨ (sch ≠ [] ∧ usesNetloc.contains sch ∧ P.take 2 ≠ ['/', '/']))
    · have hBval : netlocPart sch n P = '/' :: '/' :: (n ++ slashPath P) := by
        unfold netlocPart
        rw [if_pos hcond]
        simp
      have hPslash : slashPath P = P := slashPath_eq_self P (hslash hcond)
      have hrem : slashPath P ++ qf = [] ∨
          ∃ c t, slashPath P ++ qf = c :: t ∧ netlocDelim c = true := by
        cases hP : P with
        | nil =>
          rcases hqf3 with h0 | ⟨t3, h3⟩ | ⟨t3, h3⟩
          · left
            rw [h0]
            rfl
          · right
            exact ⟨'?', t3, by rw [h3]; rfl, by decide⟩
          · right
            exact ⟨'#', t3, by rw [h3]; rfl, by decide⟩
        | cons p0 pt =>
          obtain ⟨t2, ht2⟩ := slashPath_head p0 pt
          right
          exact ⟨'/', t2 ++ qf, by rw [ht2]; rfl, by decide⟩
      rw [hBval]
      rw [show ('/' :: '/' :: (n ++ slashPath P)) ++ qf =
          '/' :: '/' :: (n ++ (slashPath P ++ qf)) by simp]
      rw [splitNetloc_pair n (slashPath P ++ qf) hnfree hrem, hPslash]
    · have hBneg : netlocPart sch n P = P := by
        unfold netlocPart
        rw [if_neg hcond]
      have hn0 : n = [] := by
        by_contra hne
        exact hcond (Or.inl hne)
      rw [hBneg, hn0]
      apply splitNetloc_default
      have hP2take := htake hn0
      cases hP : P with
      | nil =>
        simp only [List.nil_append]
        rcases hqf3 with h0 | ⟨t3, h3⟩ | ⟨t3, h3⟩
        · rw [h0]
          simp
        · rw [h3]
          simp only [List.take_succ_cons]
          intro hco
          injection hco with hx
          exact absurd hx (by decide)
        · rw [h3]
          simp only [List.take_succ_cons]
          intro hco
          injection hco with hx
          exact absurd hx (by decide)
      | cons p0 pt =>
        cases pt with
        | nil =>
          simp only [List.cons_append, List.nil_append, List.take_succ_cons]
          intro hco
          injection hco with h1x h2x
          rcases hqf3 with h0 | ⟨t3, h3⟩ | ⟨t3, h3⟩
          · rw [h0] at h2x
            simp at h2x
          · rw [h3] at h2x
            simp only [List.take_succ_cons] at h2x
            injection h2x with h3x
            exact absurd h3x (by decide)
          · rw [h3] at h2x
            simp only [List.take_succ_cons] at h2x
            injection h2x with h3x
            exact absurd h3x (by decide)
        | cons p1 pt2 =>
          simp only [List.cons_append, List.take_succ_cons, List.take_zero]
          intro hco
          apply hP2take
          rw [hP]
          simp only [List.take_succ_cons, List.take_zero]
          exact hco
  have hFsp : splitFrag (P ++ qf) = (P ++ (if q ≠ [] then '?' :: q else []), f) := by
    have hpx : ∀ c ∈ P ++ (if q ≠ [] then '?' :: q else []), c ≠ '#' := by
      intro c hc
      rcases List.mem_append.mp hc with h | h
      · exact hP1 c h
      · by_cases hqe : q ≠ []
        · rw [if_pos hqe] at h
          rcases List.mem_cons.mp h with rfl | h
          · decide
          · exact (hq c h).2
        · rw [if_neg hqe] at h
          simp at h
    rw [hqf]
    by_cases hfe : f ≠ []
    · rw [if_pos hfe]
      rw [show P ++ ((if q ≠ [] then '?' :: q else []) ++ '#' :: f) =
          (P ++ (if q ≠ [] then '?' :: q else [])) ++ '#' :: f by simp]
      exact splitFrag_append _ f hpx
    · rw [if_neg hfe, List.append_nil, not_not.mp hfe]
      exact splitFrag_none _ hpx
  have hQsp : splitQuery (P ++ (if q ≠ [] then '?' :: q else [])) = (P, q) := by
    by_cases hqe : q ≠ []
    · rw [if_pos hqe]
      exact splitQuery_append P q hP2
    · rw [if_neg hqe, List.append_nil, not_not.mp hqe]
      exact splitQuery_none P hP2
  rw [urlsplitM_eq, hclean, hw]
  simp only [hSch, hNsp, hFsp, hQsp, hbr]
  simp

theorem prefix_shape (S B T : PyStr) (h : S = B ++ T)
    (hs : S = [] ∨ ∃ t, S = '/' :: t) : B = [] ∨ ∃ t, B = '/' :: t := by
  rcases hs with h0 | ⟨t, ht⟩
  · rw [h0] at h
    exact Or.inl (List.append_eq_nil.mp h.symm).1
  · cases B with
    | nil => exact Or.inl rfl
    | cons c ps =>
      rw [ht] at h
      simp only [List.cons_append] at h
      injection h with hx
      exact Or.inr ⟨ps, by rw [← hx]⟩

theorem urlparseQ_geturlQ (u : PyStr) (pr : ParseResult)
    (h : urlparseQ u = some pr)
    (h1 : pr.netloc = [] → (joinParams pr.path pr.params).take 2 ≠ ['/', '/'])
    (h2 : pr.netloc = [] → pr.scheme ≠ [] → usesNetloc.contains pr.scheme →
      joinParams pr.path pr.params = [] ∨ ∃ t, joinParams pr.path pr.params = '/' :: t) :
    urlparseQ (geturlQ pr) = some pr := by
  obtain ⟨psch, pnet, ppath, pparams, pquery, pfrag⟩ := pr
  have h1b : pnet = [] → (joinParams ppath pparams).take 2 ≠ ['/', '/'] := h1
  have h2b : pnet = [] → psch ≠ [] → usesNetloc.contains psch →
      joinParams ppath pparams = [] ∨ ∃ t, joinParams ppath pparams = '/' :: t := h2
  unfold urlparseQ at h
  rw [Option.map_eq_some'] at h
  obtain ⟨s, hs, hpr⟩ := h
  have hpr2 : (⟨s.scheme, s.netloc,
      (if usesParams.contains s.scheme && s.path.contains ';' then splitparams s.path
        else (s.path, [])).1,
      (if usesParams.contains s.scheme && s.path.contains ';' then splitparams s.path
        else (s.path, [])).2,
      parseQs s.query, s.fragment⟩ : ParseResult) =
      ⟨psch, pnet, ppath, pparams, pquery, pfrag⟩ := hpr
  injection hpr2 with e1 e2 e3 e4 e5 e6
  obtain ⟨Fsch, Fnfree, Fbr, Fp1, Fp2, Fnv, Fpv, Ffv, F7, F8⟩ := urlsplitM_facts u s hs
  have hpre : ∃ tP, s.path = joinParams ppath pparams ++ tP := by
    by_cases hC : (usesParams.contains s.scheme && s.path.contains ';') = true
    · rw [if_pos hC] at e3 e4
      obtain ⟨tP, htP⟩ := splitparams_prefix s.path
      refine ⟨tP, ?_⟩
      rw [htP, e3, e4]
    · rw [if_neg hC] at e3 e4
      have e3b : s.path = ppath := e3
      have e4b : ([] : PyStr) = pparams := e4
      refine ⟨[], ?_⟩
      rw [← e3b, ← e4b, joinParams_nil, List.append_nil]
  obtain ⟨tP, htP⟩ := hpre
  have hmemP : ∀ c ∈ joinParams ppath pparams, c ∈ s.path := by
    intro c hc
    rw [htP]
    exact List.mem_append.mpr (Or.inl hc)
  have hshape7 : pnet ≠ [] →
      joinParams ppath pparams = [] ∨ ∃ t, joinParams ppath pparams = '/' :: t := by
    intro hne
    exact prefix_shape s.path _ tP htP (F7 (by rw [e2]; exact hne))
  have hqenc : ∀ c ∈ urlencodeDoseq pquery, 32 < c.toNat ∧ c ≠ '#' :=
    fun c hc => urlencode_chars pquery c hc
  have hschF2 : psch = [] ∨ schemeOKb psch = true ∧ pyLower psch = psch := by
    rcases Fsch with ⟨ha, -⟩ | ⟨ha, hb⟩
    · left
      rw [← e1]
      exact ha
    · right
      rw [← e1]
      exact ⟨ha, hb⟩
  have hblk2 : psch = [] → splitScheme (urlClean u) = ([], urlClean u) := by
    intro h0
    rcases Fsch with ⟨-, hb⟩ | ⟨ha, -⟩
    · exact hb
    · rw [e1, h0] at ha
      exact absurd ha (by decide)
  have hslash2 : (pnet ≠ [] ∨ (psch ≠ [] ∧ usesNetloc.contains psch ∧
      (joinParams ppath pparams).take 2 ≠ ['/', '/'])) →
      joinParams ppath pparams = [] ∨ ∃ t, joinParams ppath pparams = '/' :: t := by
    intro hcond
    rcases hcond with hne | ⟨ha, hb, -⟩
    · exact hshape7 hne
    · by_cases hpn : pnet = []
      · exact h2b hpn ha hb
      · exact hshape7 hpn
  have hvP2 : psch = [] → pnet = [] →
      joinParams ppath pparams = [] ∨ (∃ t, joinParams ppath pparams = '/' :: t) ∨
        ∃ tail, urlClean u = joinParams ppath pparams ++ tail := by
    intro ha hb
    have hF8 := F8 (by rw [e1]; exact ha) (by rw [e2]; exact hb)
    rcases hF8 with h0 | hsl | ⟨tail, htail⟩
    · rw [htP] at h0
      exact Or.inl (List.append_eq_nil.mp h0).1
    · rcases prefix_shape s.path (joinParams ppath pparams) tP htP (Or.inr hsl) with hx | hx
      · exact Or.inl hx
      · exact Or.inr (Or.inl hx)
    · refine Or.inr (Or.inr ⟨tP ++ tail, ?_⟩)
      rw [htail, htP]
      simp
  have hmain := urlsplit_unsplit (urlClean u) psch pnet (joinParams ppath pparams)
    (urlencodeDoseq pquery) pfrag
    hschF2 hblk2 (fun c t hct => urlClean_head u c t hct)
    (fun c hc => Fnfree c (by rw [e2]; exact hc))
    (by rw [← e2]; exact Fbr)
    (fun c hc => Fp1 c (hmemP c hc))
    (fun c hc => Fp2 c (hmemP c hc))
    (fun c hc => urlClean_noTab u c (Fnv c (by rw [e2]; exact hc)))
    (fun c hc => urlClean_noTab u c (Fpv c (hmemP c hc)))
    (fun c hc => urlClean_noTab u c (Ffv c (by rw [e6]; exact hc)))
    hqenc h1b hslash2 hvP2
  have hget : geturlQ ⟨psch, pnet, ppath, pparams, pquery, pfrag⟩ =
      urlunsplit psch pnet (joinParams ppath pparams) (urlencodeDoseq pquery) pfrag := rfl
  rw [hget]
  unfold urlparseQ
  rw [hmain, Option.map_some']
  have hq2 : parseQs (urlencodeDoseq pquery) = pquery := by
    rw [← e5]
    exact parseQs_urlencode (parseQs s.query) (parseQs_wf s.query)
  have hPP2 : (if usesParams.contains psch && (joinParams ppath pparams).contains ';' then
      splitparams (joinParams ppath pparams)
    else (joinParams ppath pparams, [])) = (ppath, pparams) := by
    by_cases hC : (usesParams.contains s.scheme && s.path.contains ';') = true
    · rw [if_pos hC] at e3 e4
      by_cases hm : pparams = []
      · have hJ : joinParams ppath pparams = ppath := by rw [hm, joinParams_nil]
        rcases splitparams_empty_idem s.path with hidem | hidem
        · rw [e3] at hidem
          by_cases hC2 : (usesParams.contains psch &&
              (joinParams ppath pparams).contains ';') = true
          · rw [if_pos hC2, hJ, hidem, hm]
          · rw [if_neg hC2, hJ, hm]
        · have hsp : splitparams s.path = (ppath, pparams) := by
            rw [← e3, ← e4]
          rw [e3, hsp] at hidem
          by_cases hC2 : (usesParams.contains psch &&
              (joinParams ppath pparams).contains ';') = true
          · rw [if_pos hC2, hJ]
            exact hidem
          · rw [if_neg hC2, hJ, hm]
      · have hJ : joinParams ppath pparams = s.path := by
          rw [joinParams_ne _ _ hm, ← e3, ← e4]
          exact splitparams_join_ne s.path (by rw [e4]; exact hm)
        have hC2 : (usesParams.contains psch &&
            (joinParams ppath pparams).contains ';') = true := by
          rw [hJ, ← e1]
          exact hC
        rw [if_pos hC2, hJ, ← e3, ← e4]
    · rw [if_neg hC] at e3 e4
      have e3b : s.path = ppath := e3
      have e4b : ([] : PyStr) = pparams := e4
      have hJ : joinParams ppath pparams = s.path := by
        rw [← e3b, ← e4b, joinParams_nil]
      have hC2 : ¬ (usesParams.contains psch &&
          (joinParams ppath pparams).contains ';') = true := by
        rw [hJ, ← e1]
        exact hC
      rw [if_neg hC2, hJ, e3b, ← e4b]
  show some (⟨psch, pnet,
      (if usesParams.contains psch && (joinParams ppath pparams).contains ';' then
        splitparams (joinParams ppath pparams)
      else (joinParams ppath pparams, [])).1,
      (if usesParams.contains psch && (joinParams ppath pparams).contains ';' then
        splitparams (joinParams ppath pparams)
      else (joinParams ppath pparams, [])).2,
      parseQs (urlencodeDoseq pquery), pfrag⟩ : ParseResult) =
    some ⟨psch, pnet, ppath, pparams, pquery, pfrag⟩
  rw [hPP2, hq2]

theorem geturlQ_no_space (u : PyStr) (pr : ParseResult) (h : urlparseQ u = some pr)
    (hu : ∀ c ∈ u, c ≠ ' ') : ∀ c ∈ geturlQ pr, c ≠ ' ' := by
  obtain ⟨psch, pnet, ppath, pparams, pquery, pfrag⟩ := pr
  unfold urlparseQ at h
  rw [Option.map_eq_some'] at h
  obtain ⟨s, hs, hpr⟩ := h
  have hpr2 : (⟨s.scheme, s.netloc,
      (if usesParams.contains s.scheme && s.path.contains ';' then splitparams s.path
        else (s.path, [])).1,
      (if usesParams.contains s.scheme && s.path.contains ';' then splitparams s.path
        else (s.path, [])).2,
      parseQs s.query, s.fragment⟩ : ParseResult) =
      ⟨psch, pnet, ppath, pparams, pquery, pfrag⟩ := hpr
  injection hpr2 with e1 e2 e3 e4 e5 e6
  obtain ⟨Fsch, -, -, -, -, Fnv, Fpv, Ffv, -, -⟩ := urlsplitM_facts u s hs
  have hpre : ∃ tP, s.path = joinParams ppath pparams ++ tP := by
    by_cases hC : (usesParams.contains s.scheme && s.path.contains ';') = true
    · rw [if_pos hC] at e3 e4
      obtain ⟨tP, htP⟩ := splitparams_prefix s.path
      refine ⟨tP, ?_⟩
      rw [htP, e3, e4]
    · rw [if_neg hC] at e3 e4
      have e3b : s.path = ppath := e3
      have e4b : ([] : PyStr) = pparams := e4
      refine ⟨[], ?_⟩
      rw [← e3b, ← e4b, joinParams_nil, List.append_nil]
  obtain ⟨tP, htP⟩ := hpre
  have hmemP : ∀ c ∈ joinParams ppath pparams, c ∈ s.path := by
    intro c hc
    rw [htP]
    exact List.mem_append.mpr (Or.inl hc)
  have huv : ∀ c ∈ urlClean u, c ≠ ' ' := fun c hc => hu c (urlClean_subset u c hc)
  intro c hc
  have hc2 : c ∈ urlunsplit psch pnet (joinParams ppath pparams)
      (urlencodeDoseq pquery) pfrag := hc
  rcases urlunsplit_mem _ _ _ _ _ c hc2 with h | h | h | h | h | h
  · rcases Fsch with ⟨ha, -⟩ | ⟨ha, -⟩
    · rw [e1] at ha
      rw [ha] at h
      simp at h
    · have hb := isSchemeChar_bounds c (schemeOKb_all s.scheme ha c (by rw [e1]; exact h))
      intro he
      rw [he] at hb
      exact absurd hb.1 (by decide)
  · exact huv c (Fnv c (by rw [e2]; exact h))
  · exact huv c (Fpv c (hmemP c h))
  · have hb := (urlencode_chars pquery c h).1
    intro he
    rw [he] at hb
    exact absurd hb (by decide)
  · exact huv c (Ffv c (by rw [e6]; exact h))
  · rcases h with rfl | rfl | rfl | rfl <;> decide

/-- C5 (corrected): for a request line whose method and uri contain no space,
and whose parsed uri does not combine an empty netloc with a rejoined path
(`path` plus `;params`) that either begins with `//` or, for a nonempty
scheme in `uses_netloc`, is nonempty and relative, serializing the parsed
`RequestLine` and re-parsing the resulting bytes yields the original
`RequestLine`, including the query multimap contents. -/
theorem requestLine_roundtrip (method uri version : PyStr) (rl : RequestLineT)
    (hnew : requestLineNew method uri version = some rl)
    (hm : ∀ c ∈ method, c ≠ ' ')
    (hu : ∀ c ∈ uri, c ≠ ' ')
    (hnet1 : rl.uri.netloc = [] →
      (joinParams rl.uri.path rl.uri.params).take 2 ≠ ['/', '/'])
    (hnet2 : rl.uri.netloc = [] → rl.uri.scheme ≠ [] → usesNetloc.contains rl.uri.scheme →
      joinParams rl.uri.path rl.uri.params = [] ∨
        ∃ t, joinParams rl.uri.path rl.uri.params = '/' :: t) :
    parseRequestLineBytes (requestLineBytes rl) = some rl := by
  unfold requestLineNew at hnew
  rw [Option.map_eq_some'] at hnew
  obtain ⟨pr, hpr, hrl⟩ := hnew
  subst hrl
  have hsp : ∀ c ∈ geturlQ pr, c ≠ ' ' := geturlQ_no_space uri pr hpr hu
  have hline1 : splitOnceChar ' ' (method ++ ' ' :: (geturlQ pr ++ ' ' :: version)) =
      some (method, geturlQ pr ++ ' ' :: version) :=
    splitOnce_append ' ' method (geturlQ pr ++ ' ' :: version) hm
  have hline2 : splitOnceChar ' ' (geturlQ pr ++ ' ' :: version) =
      some (geturlQ pr, version) :=
    splitOnce_append ' ' (geturlQ pr) version hsp
  show parseRequestLineBytes
      (utf8EncodeStr (method ++ ' ' :: (geturlQ pr ++ ' ' :: version))) =
    some ⟨method, pr, version⟩
  simp only [parseRequestLineBytes, utf8Decode_encodeStr, hline1, hline2]
  unfold requestLineNew
  rw [urlparseQ_geturlQ uri pr hpr hnet1 hnet2, Option.map_some']

theorem requestLine_roundtrip_witness :
    parseRequestLineBytes (requestLineBytes
      ⟨"GET".data, ⟨"http".data, "h".data, "/p".data, [], [("a".data, ["b".data])], []⟩,
        "HTTP/1.1".data⟩) =
      some ⟨"GET".data, ⟨"http".data, "h".data, "/p".data, [], [("a".data, ["b".data])], []⟩,
        "HTTP/1.1".data⟩ :=
  requestLine_roundtrip "GET".data "http://h/p?a=b".data "HTTP/1.1".data
    ⟨"GET".data, ⟨"http".data, "h".data, "/p".data, [], [("a".data, ["b".data])], []⟩,
      "HTTP/1.1".data⟩
    (by decide) (by decide) (by decide) (by decide) (fun hx => absurd hx (by decide))

/-- C5 counterexample to the claim as stated: the uri `/a b` is accepted by
the `RequestLine` constructor, but the space survives into the serialized
request line, whose re-parse splits at the first spaces and yields a
different `RequestLine` (uri `/a`, version `b HTTP/1.1`). -/
theorem requestLine_roundtrip_counterexample :
    (requestLineNew "GET".data "/a b".data "HTTP/1.1".data).isSome = true ∧
    (requestLineNew "GET".data "/a b".data "HTTP/1.1".data).bind
        (fun rl => parseRequestLineBytes (requestLineBytes rl)) ≠
      requestLineNew "GET".data "/a b".data "HTTP/1.1".data := by
  decide
